import Mathlib

/-!
Verification development for the schedule-reflow repository.

Shallow embedding conventions:
* Instants (luxon `DateTime` values, ISO-8601 strings parsed in the UTC zone) are
  modelled as `Int` milliseconds since the Unix epoch.  All of the source's date
  strings round-trip exactly through integer milliseconds
  (`DateUtils.stringToDateTime` / `DateUtils.stringUTCtoISO`), so the string
  representation is elided and the date fields of the records hold the integer
  directly.  `DateTime.plus (minutes d)` is `t + d * 60000`;
  luxon's fractional-minute `diff` arithmetic inside
  `allocateAroundMaintenance` is carried out in exact milliseconds, which agrees
  with the source because every quantity there is an integer number of
  milliseconds scaled by the constant 60000.
* luxon weekdays are 1 (Monday) .. 7 (Sunday) and 1970-01-01 (epoch day 0) is a
  Thursday (weekday 4); `DateTime.set (hour h, minute 0, second 0, millisecond 0)`
  in the UTC zone is `dayStart + h * 3600000`.
* JavaScript `Map` values are modelled as functions `String → Option _` with
  last-write-wins update, except the Kahn in-degree map, which is iterated
  against and therefore modelled as an association list with distinct keys
  (a `Map`'s keys are distinct by construction).
* Fallible code (a thrown `Error`, or a runtime `TypeError` from dereferencing
  `undefined` after a `!` non-null assertion) is modelled with
  `Except String` / `Option`.
* `id.localeCompare` on document ids is modelled as lexicographic comparison of
  the strings' character code points.
* `while (true)` loops are given explicit fuel that dominates the number of
  iterations the source loop can perform.
-/

deriving instance DecidableEq for Except

/-! ## Data model (src/src/reflow/types.ts) -/

/-- Maintenance window (blocked time period); `endT` is the source's `end`
field, renamed because `end` is a Lean keyword. -/
structure MaintenanceWindow where
  start : Int
  endT : Int
deriving DecidableEq

/-- Weekly shift definition: `dayOfWeek` 1-7 (luxon), hours 0-23. -/
structure Shift where
  dayOfWeek : Int
  startHour : Int
  endHour : Int
deriving DecidableEq

/-- The `data` payload of a `WorkOrder`. -/
structure WOData where
  workOrderNumber : String
  manufacturingOrderId : String
  workCenterId : String
  startDate : Int
  endDate : Int
  durationMinutes : Int
  isMaintenance : Bool
  dependsOnWorkOrderIds : List String
deriving DecidableEq

/-- A work order document. -/
structure WorkOrder where
  docId : String
  docType : String
  data : WOData
deriving DecidableEq

/-- State of a `SimpleWorkCenterCalendar`: the constructor-sorted maintenance
windows and the shift definitions. -/
structure SimpleWorkCenterCalendar where
  maintenanceWindows : List MaintenanceWindow
  shifts : List Shift
deriving DecidableEq

/-- The `data` payload of a `WorkCenter`. -/
structure WCData where
  name : String
  shifts : List Shift
  maintenanceWindows : List MaintenanceWindow
deriving DecidableEq

/-- A work center document with its calendar. -/
structure WorkCenter where
  docId : String
  docType : String
  calendar : SimpleWorkCenterCalendar
  data : WCData
deriving DecidableEq

/-- An audit record for a rescheduled order. -/
structure Change where
  workOrderId : String
  oldStartTime : Int
  newStartTime : Int
  oldEndTime : Int
  newEndTime : Int
  delayReason : String
deriving DecidableEq

/-- The output of `ReflowService.reflow`. -/
structure Result where
  resultingWorkOrders : List WorkOrder
  changes : List Change
deriving DecidableEq

/-! ## Time arithmetic helpers (luxon semantics in the UTC zone) -/

def msPerDay : Int := 86400000

def msPerHour : Int := 3600000

def msPerMinute : Int := 60000

/-- Calendar day index of an instant (floor division — `Int.ediv` — in UTC). -/
def dayIndex (t : Int) : Int := t / msPerDay

/-- luxon weekday (1 = Monday .. 7 = Sunday) of a calendar day index;
epoch day 0 (1970-01-01) is a Thursday, weekday 4. -/
def weekdayOfDay (d : Int) : Int := (d + 3) % 7 + 1

/-- luxon `DateTime.weekday` of an instant. -/
def weekday (t : Int) : Int := weekdayOfDay (dayIndex t)

/-- Instant at hour `h` (minute 0, second 0, millisecond 0) of calendar day `d`. -/
def setHourOfDay (d h : Int) : Int := d * msPerDay + h * msPerHour

/-- luxon `t.set (hour h, minute 0, second 0, millisecond 0)` in UTC. -/
def setHour (t h : Int) : Int := setHourOfDay (dayIndex t) h

/-- luxon `t.plus (days 1) |>.startOf "day"` in UTC. -/
def startOfNextDay (t : Int) : Int := (dayIndex t + 1) * msPerDay

/-- Half-open interval intersection test: `[a, b)` meets `[c, d)`. -/
def intervalsIntersect (a b c d : Int) : Bool := decide (a < d) && decide (c < b)

/-! ## SimpleWorkCenterCalendar (src/src/reflow/types.ts) -/

/-- Comparator of the constructor's maintenance-window sort
(`a.start - b.start`, ascending). -/
def mwLe (a b : MaintenanceWindow) : Prop := a.start ≤ b.start

instance : DecidableRel mwLe := fun a b => Int.decLe a.start b.start

instance : IsTotal MaintenanceWindow mwLe :=
  ⟨fun a b => Int.le_total a.start b.start⟩

instance : IsTrans MaintenanceWindow mwLe :=
  ⟨fun _ _ _ h1 h2 => le_trans h1 h2⟩

/-- Constructor of `SimpleWorkCenterCalendar`: stores the maintenance windows
sorted ascending by start instant, and the shifts unchanged.
`Array.prototype.sort` is stable (ECMA-262), and a stable sort's output is
uniquely determined by the comparator, so the stable `insertionSort` is
extensionally the source's sort. -/
def mkCalendar (maintenanceWindows : List MaintenanceWindow) (shifts : List Shift) :
    SimpleWorkCenterCalendar :=
  { maintenanceWindows := maintenanceWindows.insertionSort mwLe
    shifts := shifts }

/-- Source `getNextMaintenanceAfter`: the first window (in stored order) whose
end is strictly after `time`; windows with `end ≤ time` are skipped. -/
def getNextMaintenanceAfter (cal : SimpleWorkCenterCalendar) (time : Int) :
    Option MaintenanceWindow :=
  cal.maintenanceWindows.find? (fun w => decide (time < w.endT))

/-- Source `isWorkingTime`: `time` falls inside some shift of its weekday,
half-open `[shiftStart, shiftEnd)`. -/
def isWorkingTime (cal : SimpleWorkCenterCalendar) (time : Int) : Bool :=
  cal.shifts.any (fun s =>
    decide (s.dayOfWeek = weekday time) &&
    (decide (setHour time s.startHour ≤ time) &&
     decide (time < setHour time s.endHour)))

/-- Comparator of the per-day shift sort (`a.startHour - b.startHour`). -/
def shiftLe (a b : Shift) : Prop := a.startHour ≤ b.startHour

instance : DecidableRel shiftLe := fun a b => Int.decLe a.startHour b.startHour

instance : IsTotal Shift shiftLe := ⟨fun a b => Int.le_total a.startHour b.startHour⟩

instance : IsTrans Shift shiftLe := ⟨fun _ _ _ h1 h2 => le_trans h1 h2⟩

/-- The shifts of the cursor's weekday, sorted ascending by `startHour`
(the `filter` + `sort` inside `nextWorkingTimeAfter`). -/
def nwtaDayShifts (shifts : List Shift) (d : Int) : List Shift :=
  (shifts.filter (fun s => decide (s.dayOfWeek = weekdayOfDay d))).insertionSort shiftLe

/-- The `for (let i = 0; i < 7; i++)` scan of `nextWorkingTimeAfter`: on each
day take the first same-weekday shift whose start is at or after the cursor,
else move the cursor to the next day's midnight; after 7 days the source throws
(`none` here). -/
def nwtaLoop (shifts : List Shift) : Nat → Int → Option Int
  | 0, _ => none
  | Nat.succ fuel, cursor =>
    match (nwtaDayShifts shifts (dayIndex cursor)).find?
        (fun s => decide (cursor ≤ setHour cursor s.startHour)) with
    | some s => some (setHour cursor s.startHour)
    | none => nwtaLoop shifts fuel (startOfNextDay cursor)

def noWorkErrMsg : String := "No working time found within next 7 days"

/-- Source `nextWorkingTimeAfter`: identity on working time, otherwise the
7-day scan; a fruitless scan throws the no-working-time-found error. -/
def nextWorkingTimeAfter (cal : SimpleWorkCenterCalendar) (time : Int) :
    Except String Int :=
  if isWorkingTime cal time then Except.ok time
  else
    match nwtaLoop cal.shifts 7 time with
    | some r => Except.ok r
    | none => Except.error noWorkErrMsg

/-- Source `normalizeToWorkingTime`: identity on working time, else
`nextWorkingTimeAfter`. -/
def normalizeToWorkingTime (cal : SimpleWorkCenterCalendar) (time : Int) :
    Except String Int :=
  if isWorkingTime cal time then Except.ok time else nextWorkingTimeAfter cal time

/-- The `while (true)` loop of `allocateAroundMaintenance` in the named
types.ts.  `remainingMs` is the source's fractional-minute `remaining` scaled
by 60000 (exact, see the file header).  The source returns
`(earliest, cursor + remaining)` both when no maintenance window remains and
when the gap before the next one is large enough; otherwise it deducts the gap
from `remaining` and jumps the cursor to the window's end.  The cursor passes
each stored window at most once, so fuel `length + 1` covers every run of the
source loop; `none` is an unreachable fuel artifact. -/
def allocLoop (cal : SimpleWorkCenterCalendar) :
    Nat → Int → Int → Int → Option (Int × Int)
  | 0, _, _, _ => none
  | Nat.succ fuel, earliest, remainingMs, cursor =>
    match getNextMaintenanceAfter cal cursor with
    | none => some (earliest, cursor + remainingMs)
    | some m =>
      let gapMs := m.start - cursor
      if remainingMs ≤ gapMs then some (earliest, cursor + remainingMs)
      else allocLoop cal fuel earliest (remainingMs - gapMs) m.endT

/-- Source `allocateAroundMaintenance` (named types.ts version): result is
`(start, logicalEnd)`. -/
def allocateAroundMaintenance (cal : SimpleWorkCenterCalendar)
    (earliest : Int) (durationMinutes : Int) : Option (Int × Int) :=
  allocLoop cal (cal.maintenanceWindows.length + 1) earliest
    (durationMinutes * msPerMinute) earliest

/-! ## Function-valued maps (JavaScript `Map` with string keys) -/

/-- `Map.set`: last write wins. -/
def fmSet {β : Type} (m : String → Option β) (k : String) (v : β) :
    String → Option β :=
  fun k2 => if k2 = k then some v else m k2

/-- The empty map. -/
def fmEmpty {β : Type} : String → Option β := fun _ => none

/-! ## DateUtils (src/src/utils/date.utils.ts) -/

/-- Source `DateUtils.initializeTimePointers`: every work center's time pointer
starts at `startTime`. -/
def initTimePointers (workCenters : List WorkCenter) (startTime : Int) :
    String → Option Int :=
  workCenters.foldl (fun m wc => fmSet m wc.docId startTime) fmEmpty

/-! ## ConstraintChecker (src/src/reflow/constraint.checker.ts) -/

/-- Source `ConstraintChecker.checkForCyclicDependencies`: the traversal lost
orders exactly when the lengths differ. -/
def checkForCyclicDependencies (originalWorkOrders sortedWorkOrders : List WorkOrder) :
    Bool :=
  decide (originalWorkOrders.length ≠ sortedWorkOrders.length)

/-! ## ReflowService (src/src/reflow/reflow.service.ts) -/

/-- Lexicographic order on character code points (models `localeCompare` on
plain ids). -/
def charsLe : List Char → List Char → Bool
  | [], _ => true
  | _ :: _, [] => false
  | a :: as, b :: bs =>
    if a.toNat < b.toNat then true
    else if b.toNat < a.toNat then false
    else charsLe as bs

/-- String comparison used for the id tie-break. -/
def strLe (a b : String) : Bool := charsLe a.data b.data

theorem charsLe_total (a b : List Char) : charsLe a b = true ∨ charsLe b a = true := by
  induction a generalizing b with
  | nil => left; simp [charsLe]
  | cons x as ih =>
    cases b with
    | nil => right; simp [charsLe]
    | cons y bs =>
      by_cases h1 : x.toNat < y.toNat
      · left; simp [charsLe, h1]
      · by_cases h2 : y.toNat < x.toNat
        · right; simp [charsLe, h1, h2]
        · have := ih bs
          simp [charsLe, h1, h2]
          exact this

theorem charsLe_trans (a b c : List Char) (h1 : charsLe a b = true)
    (h2 : charsLe b c = true) : charsLe a c = true := by
  induction a generalizing b c with
  | nil => simp [charsLe]
  | cons x as ih =>
    cases b with
    | nil => simp [charsLe] at h1
    | cons y bs =>
      cases c with
      | nil => simp [charsLe] at h2
      | cons z cs =>
        simp only [charsLe] at h1 h2 ⊢
        by_cases hxy : x.toNat < y.toNat
        · by_cases hyz : y.toNat < z.toNat
          · have : x.toNat < z.toNat := lt_trans hxy hyz
            simp [this]
          · by_cases hzy : z.toNat < y.toNat
            · simp [hyz, hzy] at h2
            · have hyez : y.toNat = z.toNat := by omega
              have : x.toNat < z.toNat := hyez ▸ hxy
              simp [this]
        · by_cases hyx : y.toNat < x.toNat
          · simp [hxy, hyx] at h1
          · have hxey : x.toNat = y.toNat := by omega
            by_cases hyz : y.toNat < z.toNat
            · have : x.toNat < z.toNat := hxey ▸ hyz
              simp [this]
            · by_cases hzy : z.toNat < y.toNat
              · simp [hyz, hzy] at h2
              · have h3 : ¬ x.toNat < z.toNat := by omega
                have h4 : ¬ z.toNat < x.toNat := by omega
                rw [if_neg hxy, if_neg hyx] at h1
                rw [if_neg hyz, if_neg hzy] at h2
                rw [if_neg h3, if_neg h4]
                exact ih bs cs h1 h2

theorem charsLe_antisymm (a b : List Char) (h1 : charsLe a b = true)
    (h2 : charsLe b a = true) : a = b := by
  induction a generalizing b with
  | nil =>
    cases b with
    | nil => rfl
    | cons y bs => simp [charsLe] at h2
  | cons x as ih =>
    cases b with
    | nil => simp [charsLe] at h1
    | cons y bs =>
      simp only [charsLe] at h1 h2
      by_cases hxy : x.toNat < y.toNat
      · have : ¬ y.toNat < x.toNat := by omega
        simp [hxy, this] at h2
      · by_cases hyx : y.toNat < x.toNat
        · simp [hxy, hyx] at h1
        · have hn : x.toNat = y.toNat := by omega
          have hx : x = y := Char.ext (UInt32.ext hn)
          rw [if_neg hxy, if_neg hyx] at h1
          have h5 : ¬ y.toNat < x.toNat := hyx
          have h6 : ¬ x.toNat < y.toNat := hxy
          rw [if_neg h5, if_neg h6] at h2
          rw [hx, ih bs h1 h2]

/-- Source `sortByPlannedStartTimeThenId` as a `≤`-style relation: ascending
planned start instant, ties broken by id comparison. -/
def woLeRel (a b : WorkOrder) : Prop :=
  a.data.startDate < b.data.startDate ∨
    (a.data.startDate = b.data.startDate ∧ strLe a.docId b.docId = true)

instance : DecidableRel woLeRel := fun a b => by
  unfold woLeRel; infer_instance

instance : IsTotal WorkOrder woLeRel := by
  refine ⟨fun a b => ?_⟩
  rcases lt_trichotomy a.data.startDate b.data.startDate with h | h | h
  · exact Or.inl (Or.inl h)
  · rcases charsLe_total a.docId.data b.docId.data with hc | hc
    · exact Or.inl (Or.inr ⟨h, hc⟩)
    · exact Or.inr (Or.inr ⟨h.symm, hc⟩)
  · exact Or.inr (Or.inl h)

instance : IsTrans WorkOrder woLeRel := by
  refine ⟨fun a b c h1 h2 => ?_⟩
  rcases h1 with h1 | ⟨h1e, h1c⟩
  · rcases h2 with h2 | ⟨h2e, _⟩
    · exact Or.inl (lt_trans h1 h2)
    · exact Or.inl (h2e ▸ h1)
  · rcases h2 with h2 | ⟨h2e, h2c⟩
    · exact Or.inl (h1e ▸ h2)
    · exact Or.inr ⟨h1e.trans h2e, charsLe_trans _ _ _ h1c h2c⟩

/-- Final contents of the `childWorkOrders` map entry for `p`: one child id per
occurrence of `p` among a work order's `dependsOnWorkOrderIds`, in iteration
order.  A `p` that is not a key (no input order has that id) has no entry: the
source's `childWorkOrders.get(parentId)?.push(...)` is a no-op. -/
def childrenOf (wos : List WorkOrder) (p : String) : List String :=
  if (wos.map (fun wo => wo.docId)).contains p then
    wos.flatMap (fun wo =>
      wo.data.dependsOnWorkOrderIds.filterMap
        (fun pid => if pid = p then some wo.docId else none))
  else []

/-- The `idLookup` map: `Map.set` in iteration order, so the last order with a
given id wins. -/
def idLookup (wos : List WorkOrder) : String → Option WorkOrder :=
  wos.foldl (fun m wo => fmSet m wo.docId wo) fmEmpty

/-- Final value of a work order id's `inDegree` entry: one per dependency of
each order carrying that id. -/
def depsCount (wos : List WorkOrder) (id : String) : Int :=
  ((wos.filter (fun wo => decide (wo.docId = id))).map
    (fun wo => (wo.data.dependsOnWorkOrderIds.length : Int))).sum

/-- Key list of a `Map` built by inserting in iteration order (first insertion
fixes the position; keys are distinct). -/
def addKey (ks : List String) (k : String) : List String :=
  if ks.contains k then ks else ks ++ [k]

def mapKeys (wos : List WorkOrder) : List String :=
  wos.foldl (fun ks wo => addKey ks wo.docId) []

/-- The `inDegree` map at the start of the queue phase, as an association list
over the distinct input ids. -/
def initInDegree (wos : List WorkOrder) : List (String × Int) :=
  (mapKeys wos).map (fun id => (id, depsCount wos id))

/-- Association-list read (`Map.get`). -/
def alGet : List (String × Int) → String → Option Int
  | [], _ => none
  | (k, v) :: rest, k2 => if k2 = k then some v else alGet rest k2

/-- Decrement the entry of `k2` by one (`inDegree.set(childId, get - 1)`);
no-op when the key is absent (unreachable in the source: children are input
ids). -/
def alDec : List (String × Int) → String → List (String × Int)
  | [], _ => []
  | (k, v) :: rest, k2 =>
    if k2 = k then (k, v - 1) :: rest else (k, v) :: alDec rest k2

/-- One body of the `for (const childId of childWorkOrders.get(...))` loop:
decrement the child's in-degree and, when it reaches exactly 0, enqueue the
child via `idLookup` (a missing lookup is unreachable in the source). -/
def kahnChildStep (lk : String → Option WorkOrder)
    (st : List (String × Int) × List WorkOrder) (c : String) :
    List (String × Int) × List WorkOrder :=
  if alGet (alDec st.1 c) c = some 0 then
    match lk c with
    | some x => (alDec st.1 c, st.2 ++ [x])
    | none => (alDec st.1 c, st.2)
  else (alDec st.1 c, st.2)

/-- Process all children of a popped order `w` against in-degree map `ind` and
queue `queue`. -/
def kahnStep (ch : String → List String) (lk : String → Option WorkOrder)
    (ind : List (String × Int)) (queue : List WorkOrder) (w : WorkOrder) :
    List (String × Int) × List WorkOrder :=
  (ch w.docId).foldl (kahnChildStep lk) (ind, queue)

/-- Number of strictly positive in-degree entries (termination measure
component for the revolving queue). -/
def posCount (l : List (String × Int)) : Nat :=
  (l.filter (fun e => decide (0 < e.2))).length

theorem posCount_cons (k : String) (v : Int) (rest : List (String × Int)) :
    posCount ((k, v) :: rest) =
      (if 0 < v then 1 else 0) + posCount rest := by
  by_cases h : 0 < v
  · simp [posCount, List.filter, h]
    omega
  · simp [posCount, List.filter, h]

theorem posCount_alDec_le (l : List (String × Int)) (k2 : String) :
    posCount (alDec l k2) ≤ posCount l := by
  induction l with
  | nil => simp [alDec]
  | cons e rest ih =>
    obtain ⟨k, v⟩ := e
    by_cases h : k2 = k
    · simp only [alDec, if_pos h]
      rw [posCount_cons, posCount_cons]
      have : (if 0 < v - 1 then 1 else 0) ≤ (if 0 < v then (1 : Nat) else 0) := by
        by_cases hv : 0 < v - 1
        · have : 0 < v := by omega
          simp [hv, this]
        · simp [hv]
      omega
    · simp only [alDec, if_neg h]
      rw [posCount_cons, posCount_cons]
      omega

theorem posCount_alDec_lt (l : List (String × Int)) (k2 : String)
    (h : alGet (alDec l k2) k2 = some 0) : posCount (alDec l k2) < posCount l := by
  induction l with
  | nil => simp [alDec, alGet] at h
  | cons e rest ih =>
    obtain ⟨k, v⟩ := e
    by_cases hk : k2 = k
    · simp only [alDec, if_pos hk] at h ⊢
      simp only [alGet, if_pos hk, Option.some.injEq] at h
      rw [posCount_cons, posCount_cons]
      have hv : v = 1 := by omega
      subst hv
      simp
    · simp only [alDec, if_neg hk] at h ⊢
      simp only [alGet, if_neg hk] at h
      rw [posCount_cons, posCount_cons]
      have := ih h
      omega

/-- The combined measure `queue length + positive in-degree count` never grows
across one child step. -/
theorem kahnChildStep_mu_le (lk : String → Option WorkOrder)
    (st : List (String × Int) × List WorkOrder) (c : String) :
    (kahnChildStep lk st c).2.length + posCount (kahnChildStep lk st c).1 ≤
      st.2.length + posCount st.1 := by
  unfold kahnChildStep
  by_cases h : alGet (alDec st.1 c) c = some 0
  · simp only [h, if_pos rfl]
    have hlt := posCount_alDec_lt st.1 c h
    cases hlk : lk c with
    | some x => simp; omega
    | none => simp; omega
  · simp only [if_neg h]
    have := posCount_alDec_le st.1 c
    simp
    omega

theorem kahnStep_fold_mu_le (lk : String → Option WorkOrder)
    (cs : List String) (st : List (String × Int) × List WorkOrder) :
    (cs.foldl (kahnChildStep lk) st).2.length +
        posCount (cs.foldl (kahnChildStep lk) st).1 ≤
      st.2.length + posCount st.1 := by
  induction cs generalizing st with
  | nil => simp
  | cons c cs ih =>
    simp only [List.foldl_cons]
    exact le_trans (ih (kahnChildStep lk st c)) (kahnChildStep_mu_le lk st c)

theorem kahnStep_mu_le (ch : String → List String) (lk : String → Option WorkOrder)
    (ind : List (String × Int)) (queue : List WorkOrder) (w : WorkOrder) :
    (kahnStep ch lk ind queue w).2.length + posCount (kahnStep ch lk ind queue w).1 ≤
      queue.length + posCount ind :=
  kahnStep_fold_mu_le lk (ch w.docId) (ind, queue)

/-- Termination measure of the revolving queue: queue length plus the number
of strictly positive in-degree entries.  Each iteration pops one order and, by
`kahnStep_mu_le`, child processing cannot increase the measure, so the measure
strictly decreases and bounds the number of iterations the source's
`while (queue.length > 0)` loop performs. -/
def kahnMu (ind : List (String × Int)) (queue : List WorkOrder) : Nat :=
  queue.length + posCount ind

/-- The revolving queue with explicit fuel: pop the head, emit it, process its
children.  `out` is the `topologicallySortedWorkOrders` accumulator.  Fuel
exhaustion with a nonempty queue is unreachable when the fuel is at least the
`kahnMu` measure. -/
def kahnFuel (ch : String → List String) (lk : String → Option WorkOrder) :
    Nat → List (String × Int) → List WorkOrder → List WorkOrder → List WorkOrder
  | 0, _, _, out => out
  | Nat.succ fuel, ind, queue, out =>
    match queue with
    | [] => out
    | w :: rest =>
      let st := kahnStep ch lk ind rest w
      kahnFuel ch lk fuel st.1 st.2 (out ++ [w])

/-- The source's `while (queue.length > 0)` loop: the fuel `kahnMu ind queue`
always suffices. -/
def kahnAux (ch : String → List String) (lk : String → Option WorkOrder)
    (ind : List (String × Int)) (queue : List WorkOrder) (out : List WorkOrder) :
    List WorkOrder :=
  kahnFuel ch lk (kahnMu ind queue) ind queue out

def cyclicErrMsg : String := "Cyclic dependency detected. Cannot proceed with scheduling"

/-- Source `sortWorkOrders`: pre-sort by planned start then id (stable
`Array.prototype.sort`, extensionally `insertionSort`), build the DAG maps,
seed the queue with in-degree-0 orders in pre-sorted order, run the revolving
queue, and fail when orders were lost (a cycle). -/
def sortWorkOrders (workOrders : List WorkOrder) : Except String (List WorkOrder) :=
  let sorted := workOrders.insertionSort woLeRel
  let ch := childrenOf sorted
  let lk := idLookup sorted
  let ind0 := initInDegree sorted
  let seeds := sorted.filter (fun wo => decide (alGet ind0 wo.docId = some 0))
  let topo := kahnAux ch lk ind0 seeds []
  if checkForCyclicDependencies workOrders topo then Except.error cyclicErrMsg
  else Except.ok topo

/-- Source `getDependenciesMetTime`: running maximum of the scheduled parents'
end instants, starting from the epoch; a missing parent entry is a runtime
`TypeError` (`none`). -/
def getDependenciesMetTime (workOrder : WorkOrder)
    (scheduledWorkOrdersMap : String → Option WorkOrder) : Option Int :=
  workOrder.data.dependsOnWorkOrderIds.foldl
    (fun acc parentId =>
      match acc, scheduledWorkOrdersMap parentId with
      | some t, some p =>
        some (if p.data.endDate > t then p.data.endDate else t)
      | _, _ => none)
    (some 0)

def delayReasonMsg : String := "Delayed due to dependencies"

/-- Source `scheduleWorkOrder`: candidate start is
`max (timePointer, plannedStart, dependencyMetTime)`; the end is
`start + duration` minutes; the order is mutated and a `Change` emitted exactly
when either instant moved; the center's time pointer advances to the end, and
the order is recorded in the scheduled map.  Returns the updated order, the
optional change, and the two updated maps; `none` models the source's runtime
`TypeError` on a missing time pointer or scheduled parent. -/
def scheduleWorkOrder (workOrder : WorkOrder) (workCenter : WorkCenter)
    (timePointers : String → Option Int)
    (scheduledWorkOrdersMap : String → Option WorkOrder) :
    Option (WorkOrder × Option Change × (String → Option Int) ×
      (String → Option WorkOrder)) :=
  match timePointers workCenter.docId,
      getDependenciesMetTime workOrder scheduledWorkOrdersMap with
  | some timePointer, some dependencyMetTime =>
    let initialStartTime := workOrder.data.startDate
    let initialEndTime := workOrder.data.endDate
    let duration := workOrder.data.durationMinutes
    let startTimeMillis := max (max timePointer initialStartTime) dependencyMetTime
    let endTime := startTimeMillis + duration * msPerMinute
    if startTimeMillis ≠ initialStartTime ∨ endTime ≠ initialEndTime then
      let newWO : WorkOrder :=
        { workOrder with data :=
            { workOrder.data with startDate := startTimeMillis, endDate := endTime } }
      some (newWO,
        some { workOrderId := workOrder.docId
               oldStartTime := initialStartTime
               newStartTime := startTimeMillis
               oldEndTime := initialEndTime
               newEndTime := endTime
               delayReason := delayReasonMsg },
        fmSet timePointers workCenter.docId endTime,
        fmSet scheduledWorkOrdersMap workOrder.docId newWO)
    else
      some (workOrder, none,
        fmSet timePointers workCenter.docId endTime,
        fmSet scheduledWorkOrdersMap workOrder.docId workOrder)
  | _, _ => none

/-- The work-center lookup map built at the top of `reflow`. -/
def wcByIdLookup (workCenters : List WorkCenter) : String → Option WorkCenter :=
  workCenters.foldl (fun m wc => fmSet m wc.docId wc) fmEmpty

def wcErrMsg : String := "TypeError: undefined work center dereferenced"

def schedErrMsg : String := "TypeError: undefined dereferenced in scheduleWorkOrder"

def emptyErrMsg : String :=
  "TypeError: cannot read data of undefined (empty sorted work order list)"

/-- The `for (const wo of sortedWorkOrders)` loop of `reflow`, threading the
time pointers, the scheduled-order map, and the two accumulators. -/
def reflowLoop (wcLookup : String → Option WorkCenter) :
    List WorkOrder → (String → Option Int) → (String → Option WorkOrder) →
      List WorkOrder → List Change → Except String Result
  | [], _, _, accW, accC =>
    Except.ok { resultingWorkOrders := accW, changes := accC }
  | wo :: rest, tps, sched, accW, accC =>
    match wcLookup wo.data.workCenterId with
    | none => Except.error wcErrMsg
    | some wc =>
      match scheduleWorkOrder wo wc tps sched with
      | none => Except.error schedErrMsg
      | some (wo2, ch, tps2, sched2) =>
        reflowLoop wcLookup rest tps2 sched2 (accW ++ [wo2])
          (accC ++ (match ch with | some c => [c] | none => []))

/-- Source `ReflowService.reflow`: sort, build the work-center lookup, read the
first sorted order's start to seed every time pointer (a `TypeError` when the
list is empty), then schedule each order in turn. -/
def reflow (workOrders : List WorkOrder) (workCenters : List WorkCenter) :
    Except String Result :=
  match sortWorkOrders workOrders with
  | Except.error e => Except.error e
  | Except.ok sortedWorkOrders =>
    match sortedWorkOrders with
    | [] => Except.error emptyErrMsg
    | first :: _ =>
      let wcLookup := wcByIdLookup workCenters
      let timePointers := initTimePointers workCenters first.data.startDate
      reflowLoop wcLookup sortedWorkOrders timePointers fmEmpty [] []

/-! ## Concrete inputs used by counterexamples, failing-input and witness
theorems -/

def c1window : MaintenanceWindow := { start := 1800000, endT := 5400000 }

def c1order : WorkOrder :=
  { docId := "WO-1", docType := "workOrder",
    data := { workOrderNumber := "WO-1", manufacturingOrderId := "MO-1",
              workCenterId := "WC-1", startDate := 0, endDate := 3600000,
              durationMinutes := 60, isMaintenance := false,
              dependsOnWorkOrderIds := [] } }

def c1center : WorkCenter :=
  { docId := "WC-1", docType := "workCenter",
    calendar := mkCalendar [c1window] [],
    data := { name := "Center 1", shifts := [], maintenanceWindows := [c1window] } }

/-- C1: the claim asserts that every scheduled order's `[start, end)` interval
avoids every maintenance window of its work center.  The shipped
`scheduleWorkOrder` never consults the calendar (the maintenance logic is left
as an `@upgrade('0.0.2')` comment), contradicting the repository README's step
5, which states that any start time colliding with a maintenance window must be
moved past it.  Failing input: a single order planned over `[0, 3600000)` on a
center with maintenance window `[1800000, 5400000)`; reflow returns it
unmoved, and its interval intersects the window. -/
theorem c1_reflow_example_crosses_maintenance :
    reflow [c1order] [c1center] =
      Except.ok { resultingWorkOrders := [c1order], changes := [] } ∧
    c1center.data.maintenanceWindows = [c1window] ∧
    intervalsIntersect c1order.data.startDate c1order.data.endDate
      c1window.start c1window.endT = true := by
  refine ⟨by decide, by decide, by decide⟩

def c7center : WorkCenter :=
  { docId := "WC-7", docType := "workCenter",
    calendar := mkCalendar [] [],
    data := { name := "Center 7", shifts := [], maintenanceWindows := [] } }

def c7orderA : WorkOrder :=
  { docId := "WO-A", docType := "workOrder",
    data := { workOrderNumber := "WO-A", manufacturingOrderId := "MO-7",
              workCenterId := "WC-7", startDate := 0, endDate := 3600000,
              durationMinutes := 60, isMaintenance := false,
              dependsOnWorkOrderIds := [] } }

def c7orderB : WorkOrder :=
  { docId := "WO-B", docType := "workOrder",
    data := { workOrderNumber := "WO-B", manufacturingOrderId := "MO-7",
              workCenterId := "WC-7", startDate := 1800000, endDate := 5400000,
              durationMinutes := 60, isMaintenance := true,
              dependsOnWorkOrderIds := [] } }

def c7orderBShifted : WorkOrder :=
  { docId := "WO-B", docType := "workOrder",
    data := { workOrderNumber := "WO-B", manufacturingOrderId := "MO-7",
              workCenterId := "WC-7", startDate := 3600000, endDate := 7200000,
              durationMinutes := 60, isMaintenance := true,
              dependsOnWorkOrderIds := [] } }

/-- C7: the claim asserts that an order whose `isMaintenance` flag is true is
never shifted by reflow.  `scheduleWorkOrder` never reads the flag, although
the spec (and the field's own comment, "Cannot be rescheduled if true")
declares such orders immovable.  Failing input: maintenance-flagged order
`WO-B` planned `[1800000, 5400000)` behind order `WO-A` on the same center;
cursor pressure moves it to `[3600000, 7200000)` and a `Change` is emitted. -/
theorem c7_maintenance_order_shifted :
    c7orderB.data.isMaintenance = true ∧
    reflow [c7orderA, c7orderB] [c7center] =
      Except.ok { resultingWorkOrders := [c7orderA, c7orderBShifted],
                  changes := [{ workOrderId := "WO-B", oldStartTime := 1800000,
                                newStartTime := 3600000, oldEndTime := 5400000,
                                newEndTime := 7200000,
                                delayReason := delayReasonMsg }] } ∧
    c7orderBShifted.data.startDate ≠ c7orderB.data.startDate ∧
    c7orderBShifted.data.endDate ≠ c7orderB.data.endDate := by
  refine ⟨by decide, by decide, by decide, by decide⟩

/-- C10: reflow called with an empty work-order list does not return an empty
`Result`; topological sorting succeeds with the empty list, but the
unconditional read of `sortedWorkOrders[0].data.startDate` used to seed the
per-center time pointers dereferences `undefined` and the run fails, for every
collection of work centers. -/
theorem c10_reflow_empty_fails (workCenters : List WorkCenter) :
    reflow [] workCenters = Except.error emptyErrMsg := rfl

/-- Witness for C10 at a concrete input. -/
theorem c10_reflow_empty_fails_witness :
    reflow [] [c1center] = Except.error emptyErrMsg :=
  c10_reflow_empty_fails [c1center]

/-- C8: `scheduleWorkOrder` emits a `Change` record if and only if it moves
the order relative to its plan: the returned change is `none` exactly when the
stored start and end instants are unchanged, in which case the order record is
returned untouched; when a change is returned (the source produces at most one
per order, and `reflow` appends exactly that one), it captures the order's id
and the old and new start/end instants. -/
theorem c8_change_iff_moved (wo : WorkOrder) (wc : WorkCenter)
    (tps : String → Option Int) (sched : String → Option WorkOrder)
    (wo2 : WorkOrder) (ch : Option Change) (tps2 : String → Option Int)
    (sched2 : String → Option WorkOrder)
    (h : scheduleWorkOrder wo wc tps sched = some (wo2, ch, tps2, sched2)) :
    (ch = none ↔ (wo2.data.startDate = wo.data.startDate ∧
                  wo2.data.endDate = wo.data.endDate)) ∧
    (ch = none → wo2 = wo) ∧
    (∀ c, ch = some c →
      c.workOrderId = wo.docId ∧
      c.oldStartTime = wo.data.startDate ∧ c.newStartTime = wo2.data.startDate ∧
      c.oldEndTime = wo.data.endDate ∧ c.newEndTime = wo2.data.endDate) := by
  unfold scheduleWorkOrder at h
  cases htp : tps wc.docId with
  | none => rw [htp] at h; simp at h
  | some tp =>
    cases hdm : getDependenciesMetTime wo sched with
    | none => rw [htp, hdm] at h; simp at h
    | some dm =>
      rw [htp, hdm] at h
      simp only [] at h
      by_cases hcond : max (max tp wo.data.startDate) dm ≠ wo.data.startDate ∨
          max (max tp wo.data.startDate) dm + wo.data.durationMinutes * msPerMinute ≠
            wo.data.endDate
      · rw [if_pos hcond] at h
        simp only [Option.some.injEq, Prod.mk.injEq] at h
        obtain ⟨hwo2, hch, _, _⟩ := h
        refine ⟨?_, ?_, ?_⟩
        · constructor
          · intro hn; rw [hn] at hch; simp at hch
          · rintro ⟨h1, h2⟩
            exfalso
            rw [← hwo2] at h1 h2
            rcases hcond with hc | hc
            · exact hc h1
            · exact hc h2
        · intro hn; rw [hn] at hch; simp at hch
        · intro c hc
          rw [hc] at hch
          simp only [Option.some.injEq] at hch
          rw [← hch, ← hwo2]
          refine ⟨rfl, rfl, rfl, rfl, rfl⟩
      · rw [if_neg hcond] at h
        simp only [Option.some.injEq, Prod.mk.injEq] at h
        obtain ⟨hwo2, hch, _, _⟩ := h
        refine ⟨?_, ?_, ?_⟩
        · rw [← hch, ← hwo2]
          simp
        · intro _; exact hwo2.symm
        · intro c hc; rw [hc] at hch; simp at hch

def c8center : WorkCenter :=
  { docId := "WC-8", docType := "workCenter",
    calendar := mkCalendar [] [],
    data := { name := "Center 8", shifts := [], maintenanceWindows := [] } }

def c8order : WorkOrder :=
  { docId := "WO-8", docType := "workOrder",
    data := { workOrderNumber := "WO-8", manufacturingOrderId := "MO-8",
              workCenterId := "WC-8", startDate := 0, endDate := 3600000,
              durationMinutes := 60, isMaintenance := false,
              dependsOnWorkOrderIds := [] } }

def c8tps : String → Option Int := fmSet fmEmpty "WC-8" 0

/-- Witness for C8: an already-feasible order is returned untouched with no
change record. -/
theorem c8_change_iff_moved_witness :
    ((none : Option Change) = none ↔
      (c8order.data.startDate = c8order.data.startDate ∧
       c8order.data.endDate = c8order.data.endDate)) ∧
    ((none : Option Change) = none → c8order = c8order) ∧
    (∀ c, (none : Option Change) = some c →
      c.workOrderId = c8order.docId ∧
      c.oldStartTime = c8order.data.startDate ∧
      c.newStartTime = c8order.data.startDate ∧
      c.oldEndTime = c8order.data.endDate ∧
      c.newEndTime = c8order.data.endDate) :=
  c8_change_iff_moved c8order c8center c8tps fmEmpty c8order none
    (fmSet c8tps "WC-8" 3600000) (fmSet fmEmpty "WO-8" c8order) rfl

def c6cal : SimpleWorkCenterCalendar :=
  mkCalendar [{ start := 3000000, endT := 3600000 }] []

/-- C6 counterexample: the claim asserts that `allocateAroundMaintenance`
returns `(start, logicalEnd)` with `logicalEnd = start + durationMinutes` and
`[start, start + durationMinutes)` disjoint from every maintenance window.
For `earliest = 0` and 100 minutes against the single window
`[3000000, 3600000)` (minutes 50 to 60), the source returns
`start = earliest = 0` and `logicalEnd = 6600000` (minute 110), so
`logicalEnd ≠ start + duration`, and the block `[0, 6000000)` read from the
returned start intersects the window. -/
theorem c6_alloc_counterexample :
    allocateAroundMaintenance c6cal 0 100 = some (0, 6600000) ∧
    (6600000 : Int) ≠ 0 + 100 * msPerMinute ∧
    intervalsIntersect 0 (0 + 100 * msPerMinute) 3000000 3600000 = true := by
  refine ⟨by decide, by decide, by decide⟩

/-- C6 amended: when no maintenance window whose end lies after `earliest`
starts within `durationMinutes` of `earliest` — i.e. the whole block fits in
the gap before the first relevant window, the only case in which the source
performs no cursor jump — `allocateAroundMaintenance` returns
`start = earliest` and `logicalEnd = earliest + durationMinutes`, and the
block `[start, start + durationMinutes)` intersects no maintenance window.
When a window is skipped, the returned start remains `earliest` and the
returned `logicalEnd` drifts from `start + durationMinutes` (see the
counterexample). -/
theorem c6_alloc_gap_fit (cal : SimpleWorkCenterCalendar)
    (earliest durationMinutes : Int)
    (hgap : ∀ w ∈ cal.maintenanceWindows, earliest < w.endT →
      earliest + durationMinutes * msPerMinute ≤ w.start) :
    allocateAroundMaintenance cal earliest durationMinutes =
      some (earliest, earliest + durationMinutes * msPerMinute) ∧
    ∀ w ∈ cal.maintenanceWindows,
      intervalsIntersect earliest (earliest + durationMinutes * msPerMinute)
        w.start w.endT = false := by
  constructor
  · unfold allocateAroundMaintenance
    simp only [allocLoop]
    cases hm : getNextMaintenanceAfter cal earliest with
    | none => rfl
    | some m =>
      have hm2 : cal.maintenanceWindows.find? (fun w => decide (earliest < w.endT)) =
          some m := hm
      have hmem : m ∈ cal.maintenanceWindows := List.mem_of_find?_eq_some hm2
      have hpred := List.find?_some hm2
      have hlt : earliest < m.endT := of_decide_eq_true hpred
      have hge : earliest + durationMinutes * msPerMinute ≤ m.start :=
        hgap m hmem hlt
      have hfit : durationMinutes * msPerMinute ≤ m.start - earliest := by omega
      show (if durationMinutes * msPerMinute ≤ m.start - earliest then
          some (earliest, earliest + durationMinutes * msPerMinute)
        else allocLoop cal cal.maintenanceWindows.length earliest
          (durationMinutes * msPerMinute - (m.start - earliest)) m.endT) =
        some (earliest, earliest + durationMinutes * msPerMinute)
      exact if_pos hfit
  · intro w hw
    by_cases hend : earliest < w.endT
    · have := hgap w hw hend
      simp only [intervalsIntersect, Bool.and_eq_false_iff]
      right
      simp only [decide_eq_false_iff_not, not_lt]
      exact this
    · simp only [intervalsIntersect, Bool.and_eq_false_iff]
      left
      simp only [decide_eq_false_iff_not]
      exact hend

def c6calFar : SimpleWorkCenterCalendar :=
  mkCalendar [{ start := 10000000, endT := 20000000 }] []

/-- Witness for C6 amended: a 1-minute block at `earliest = 0` fits before the
window starting at 10000000. -/
theorem c6_alloc_gap_fit_witness :
    (∀ w ∈ c6calFar.maintenanceWindows, (0 : Int) < w.endT →
      (0 : Int) + 1 * msPerMinute ≤ w.start) ∧
    (allocateAroundMaintenance c6calFar 0 1 =
        some (0, 0 + 1 * msPerMinute) ∧
      ∀ w ∈ c6calFar.maintenanceWindows,
        intervalsIntersect 0 (0 + 1 * msPerMinute) w.start w.endT = false) :=
  ⟨by decide, c6_alloc_gap_fit c6calFar 0 1 (by decide)⟩

def c5cal : SimpleWorkCenterCalendar :=
  mkCalendar [] [{ dayOfWeek := 1, startHour := 8, endHour := 10 }]

/-- Day 4 (1970-01-05, a Monday) at 23:00 UTC. -/
def c5instant : Int := 4 * 86400000 + 23 * 3600000

/-- C5 counterexample: the claim asserts that `nextWorkingTimeAfter` fails only
when no shift exists within 7 days of the instant, and in particular succeeds
for every calendar that has at least one configured shift.  The calendar
`c5cal` has exactly one shift (Monday 08:00-10:00), and at Monday 23:00 the
scan visits the instant's Monday (whose shift start has already passed) and
then Tuesday through Sunday only, so it throws the no-working-time-found error
even though the next Monday's 08:00 shift start lies within 7 days of the
instant and is working time. -/
theorem c5_single_shift_calendar_fails :
    c5cal.shifts.length = 1 ∧
    nextWorkingTimeAfter c5cal c5instant = Except.error noWorkErrMsg ∧
    isWorkingTime c5cal (11 * 86400000 + 8 * 3600000) = true ∧
    c5instant ≤ 11 * 86400000 + 8 * 3600000 ∧
    (11 * 86400000 + 8 * 3600000 : Int) ≤ c5instant + 7 * 86400000 := by
  refine ⟨by decide, by decide, by decide, by decide, by decide⟩

/-! Machinery for the amended C5: a specification of what the 7-day scan can
return. -/

/-- Specification predicate: `x` is the start instant of some configured shift
occurring on one of the `fuel` scanned calendar days starting at `t`'s day,
and not before `t`. -/
def isScanStart (shifts : List Shift) (t : Int) (fuel : Nat) (x : Int) : Prop :=
  ∃ s ∈ shifts, ∃ i : Nat, i < fuel ∧
    s.dayOfWeek = weekdayOfDay (dayIndex t + (i : Int)) ∧
    x = setHourOfDay (dayIndex t + (i : Int)) s.startHour ∧ t ≤ x

theorem dayIndex_mul_le (t : Int) : dayIndex t * msPerDay ≤ t := by
  simp only [dayIndex, msPerDay]; omega

theorem lt_startOfNextDay (t : Int) : t < startOfNextDay t := by
  simp only [startOfNextDay, dayIndex, msPerDay]; omega

theorem dayIndex_startOfNextDay (t : Int) :
    dayIndex (startOfNextDay t) = dayIndex t + 1 := by
  simp only [startOfNextDay, dayIndex, msPerDay]; omega

theorem startOfNextDay_dayStart (t : Int) :
    startOfNextDay t = (dayIndex t + 1) * msPerDay := rfl

/-- Membership in the per-day sorted shift list. -/
theorem nwta_day_mem {shifts : List Shift} {d : Int} {s : Shift}
    (h : s ∈ nwtaDayShifts shifts d) :
    s ∈ shifts ∧ s.dayOfWeek = weekdayOfDay d := by
  unfold nwtaDayShifts at h
  have h2 := (List.perm_insertionSort shiftLe _).subset h
  rcases List.mem_filter.mp h2 with ⟨h3, h4⟩
  exact ⟨h3, of_decide_eq_true h4⟩

theorem nwta_day_mem_rev {shifts : List Shift} {d : Int} {s : Shift}
    (h1 : s ∈ shifts) (h2 : s.dayOfWeek = weekdayOfDay d) :
    s ∈ nwtaDayShifts shifts d := by
  unfold nwtaDayShifts
  exact (List.perm_insertionSort shiftLe _).mem_iff.mpr
    (List.mem_filter.mpr ⟨h1, decide_eq_true h2⟩)

/-- In a list sorted by `startHour`, the first entry satisfying a predicate has
minimal `startHour` among satisfying entries. -/
theorem find?_min_sorted {l : List Shift} {p : Shift → Bool} {s : Shift}
    (hs : List.Pairwise shiftLe l) (h : l.find? p = some s) :
    ∀ s2 ∈ l, p s2 = true → s.startHour ≤ s2.startHour := by
  induction l with
  | nil => simp at h
  | cons a l ih =>
    rcases List.pairwise_cons.mp hs with ⟨ha, hl⟩
    intro s2 hs2 hp2
    by_cases hpa : p a = true
    · rw [List.find?_cons_of_pos _ hpa] at h
      have hsa : s = a := by
        simpa using h.symm
      subst hsa
      rcases List.mem_cons.mp hs2 with h2 | h2
      · rw [h2]
      · exact ha s2 h2
    · rw [List.find?_cons_of_neg _ (by simpa using hpa)] at h
      rcases List.mem_cons.mp hs2 with h2 | h2
      · rw [h2] at hp2; exact absurd hp2 hpa
      · exact ih hl h s2 h2 hp2

/-- One-day peel of the scan candidates. -/
theorem isScanStart_succ (shifts : List Shift) (c : Int) (fuel : Nat) (x : Int)
    (hval : ∀ s ∈ shifts, 0 ≤ s.startHour ∧ s.startHour ≤ 23) :
    isScanStart shifts c (fuel + 1) x ↔
      ((∃ s ∈ shifts, s.dayOfWeek = weekdayOfDay (dayIndex c) ∧
          x = setHourOfDay (dayIndex c) s.startHour ∧ c ≤ x) ∨
        isScanStart shifts (startOfNextDay c) fuel x) := by
  constructor
  · rintro ⟨s, hs, i, hi, hd, hx, hcx⟩
    cases i with
    | zero =>
      left
      refine ⟨s, hs, ?_, ?_, hcx⟩
      · simpa using hd
      · simpa using hx
    | succ j =>
      right
      have hdj : dayIndex (startOfNextDay c) + (j : Int) =
          dayIndex c + ((j + 1 : Nat) : Int) := by
        rw [dayIndex_startOfNextDay]; push_cast; ring
      refine ⟨s, hs, j, by omega, ?_, ?_, ?_⟩
      · rw [hdj]; exact hd
      · rw [hdj]; exact hx
      · have hhr := (hval s hs).1
        rw [hx, startOfNextDay_dayStart]
        simp only [setHourOfDay, msPerDay, msPerHour]
        push_cast
        have : (0 : Int) ≤ (j : Int) := by positivity
        nlinarith
  · rintro (⟨s, hs, hd, hx, hcx⟩ | ⟨s, hs, j, hj, hd, hx, hcx⟩)
    · refine ⟨s, hs, 0, by omega, ?_, ?_, hcx⟩
      · simpa using hd
      · simpa using hx
    · have hdj : dayIndex (startOfNextDay c) + (j : Int) =
          dayIndex c + ((j + 1 : Nat) : Int) := by
        rw [dayIndex_startOfNextDay]; push_cast; ring
      refine ⟨s, hs, j + 1, by omega, ?_, ?_, ?_⟩
      · rw [← hdj]; exact hd
      · rw [← hdj]; exact hx
      · exact le_trans (le_of_lt (lt_startOfNextDay c)) hcx

/-- Full characterization of the day-scan loop: it returns `none` exactly when
no scanned shift start lies at or after the cursor, and any returned instant
is the least scanned shift start at or after the cursor. -/
theorem nwtaLoop_spec (shifts : List Shift)
    (hval : ∀ s ∈ shifts, 0 ≤ s.startHour ∧ s.startHour ≤ 23) :
    ∀ (fuel : Nat) (c : Int),
      (nwtaLoop shifts fuel c = none ↔ ∀ x, ¬ isScanStart shifts c fuel x) ∧
      (∀ r, nwtaLoop shifts fuel c = some r →
        isScanStart shifts c fuel r ∧ ∀ x, isScanStart shifts c fuel x → r ≤ x) := by
  intro fuel
  induction fuel with
  | zero =>
    intro c
    constructor
    · constructor
      · rintro - x ⟨s, hs, i, hi, -⟩; omega
      · intro _; rfl
    · intro r h; simp [nwtaLoop] at h
  | succ fuel ih =>
    intro c
    cases hfind : (nwtaDayShifts shifts (dayIndex c)).find?
        (fun s => decide (c ≤ setHour c s.startHour)) with
    | some s =>
      have hloop : nwtaLoop shifts (fuel + 1) c = some (setHour c s.startHour) := by
        simp [nwtaLoop, hfind]
      rcases nwta_day_mem (List.mem_of_find?_eq_some hfind) with ⟨hs, hd⟩
      have hpred0 := List.find?_some hfind
      have hcr : c ≤ setHour c s.startHour := of_decide_eq_true hpred0
      have hscan : isScanStart shifts c (fuel + 1) (setHour c s.startHour) := by
        refine ⟨s, hs, 0, by omega, by simpa using hd, by simp [setHour], hcr⟩
      have hmin : ∀ x, isScanStart shifts c (fuel + 1) x → setHour c s.startHour ≤ x := by
        intro x hx
        rcases (isScanStart_succ shifts c fuel x hval).mp hx with
          ⟨s2, hs2, hd2, hx2, hcx2⟩ | ⟨s2, hs2, j, hj, hd2, hx2, hcx2⟩
        · have hmem2 : s2 ∈ nwtaDayShifts shifts (dayIndex c) := nwta_day_mem_rev hs2 hd2
          have hp2 : decide (c ≤ setHour c s2.startHour) = true := by
            apply decide_eq_true
            show c ≤ setHour c s2.startHour
            rw [show setHour c s2.startHour = x from hx2.symm]
            exact hcx2
          have hsorted : List.Pairwise shiftLe (nwtaDayShifts shifts (dayIndex c)) :=
            List.sorted_insertionSort shiftLe _
          have hhr := find?_min_sorted hsorted hfind s2 hmem2 hp2
          rw [hx2]
          simp only [setHour, setHourOfDay, msPerHour]
          omega
        · have h23 := (hval s hs).2
          have h0 := (hval s2 hs2).1
          rw [hx2]
          rw [dayIndex_startOfNextDay]
          simp only [setHour, setHourOfDay, msPerDay, msPerHour]
          have hj0 : (0 : Int) ≤ (j : Int) := by positivity
          nlinarith
      constructor
      · rw [hloop]
        refine iff_of_false (by simp) ?_
        intro hall
        exact hall (setHour c s.startHour) hscan
      · intro r hr
        rw [hloop] at hr
        have : setHour c s.startHour = r := by simpa using hr
        rw [← this]
        exact ⟨hscan, hmin⟩
    | none =>
      have hloop : nwtaLoop shifts (fuel + 1) c =
          nwtaLoop shifts fuel (startOfNextDay c) := by
        simp [nwtaLoop, hfind]
      have hday0 : ∀ x, ¬ (∃ s ∈ shifts, s.dayOfWeek = weekdayOfDay (dayIndex c) ∧
          x = setHourOfDay (dayIndex c) s.startHour ∧ c ≤ x) := by
        rintro x ⟨s2, hs2, hd2, hx2, hcx2⟩
        have hmem2 : s2 ∈ nwtaDayShifts shifts (dayIndex c) := nwta_day_mem_rev hs2 hd2
        have := List.find?_eq_none.mp hfind s2 hmem2
        apply this
        apply decide_eq_true
        show c ≤ setHour c s2.startHour
        rw [show setHour c s2.startHour = x from hx2.symm]
        exact hcx2
      rcases ih (startOfNextDay c) with ⟨ihnone, ihsome⟩
      constructor
      · rw [hloop]
        constructor
        · intro hn x hx
          rcases (isScanStart_succ shifts c fuel x hval).mp hx with h0 | h1
          · exact hday0 x h0
          · exact ihnone.mp hn x h1
        · intro hall
          apply ihnone.mpr
          intro x hx
          exact hall x ((isScanStart_succ shifts c fuel x hval).mpr (Or.inr hx))
      · intro r hr
        rw [hloop] at hr
        rcases ihsome r hr with ⟨hscan, hmin⟩
        constructor
        · exact (isScanStart_succ shifts c fuel r hval).mpr (Or.inr hscan)
        · intro x hx
          rcases (isScanStart_succ shifts c fuel x hval).mp hx with h0 | h1
          · exact absurd h0 (hday0 x)
          · exact hmin x h1

/-- C5 amended: `nextWorkingTimeAfter` returns the instant unchanged when it
is working time; otherwise it returns the start of the earliest configured
shift occurrence at or after the instant among the scanned calendar days — the
instant's own day and the 6 following days, each weekday visited once — and it
fails with the no-working-time-found error exactly when no shift start at or
after the instant exists in that scan.  In particular a calendar whose only
shifts lie on the instant's own weekday at hours that have already passed
fails even though it has a configured shift within 7 days (see the
counterexample). -/
theorem c5_nextWorkingTimeAfter_scan_spec (cal : SimpleWorkCenterCalendar) (t : Int)
    (hval : ∀ s ∈ cal.shifts, 0 ≤ s.startHour ∧ s.startHour ≤ 23) :
    (isWorkingTime cal t = true → nextWorkingTimeAfter cal t = Except.ok t) ∧
    (isWorkingTime cal t = false →
      (∀ r, nextWorkingTimeAfter cal t = Except.ok r →
        isScanStart cal.shifts t 7 r ∧ ∀ x, isScanStart cal.shifts t 7 x → r ≤ x) ∧
      (nextWorkingTimeAfter cal t = Except.error noWorkErrMsg ↔
        ∀ x, ¬ isScanStart cal.shifts t 7 x)) := by
  constructor
  · intro hw
    unfold nextWorkingTimeAfter
    rw [if_pos hw]
  · intro hw
    rcases nwtaLoop_spec cal.shifts hval 7 t with ⟨hnone, hsome⟩
    constructor
    · intro r hr
      unfold nextWorkingTimeAfter at hr
      rw [if_neg (by simp [hw])] at hr
      cases hl : nwtaLoop cal.shifts 7 t with
      | some v =>
        rw [hl] at hr
        simp only [Except.ok.injEq] at hr
        rw [← hr]
        exact hsome v hl
      | none => rw [hl] at hr; simp at hr
    · unfold nextWorkingTimeAfter
      rw [if_neg (by simp [hw])]
      cases hl : nwtaLoop cal.shifts 7 t with
      | some v =>
        refine iff_of_false (by simp) ?_
        intro hall
        exact hall v (hsome v hl).1
      | none =>
        refine iff_of_true rfl (hnone.mp hl)

/-- Witness for C5 amended, at the counterexample calendar and a working
instant: Monday 08:30 is inside the shift and is returned unchanged. -/
theorem c5_nextWorkingTimeAfter_scan_spec_witness :
    (∀ s ∈ c5cal.shifts, 0 ≤ s.startHour ∧ s.startHour ≤ 23) ∧
    ((isWorkingTime c5cal (4 * 86400000 + 8 * 3600000 + 1800000) = true →
      nextWorkingTimeAfter c5cal (4 * 86400000 + 8 * 3600000 + 1800000) =
        Except.ok (4 * 86400000 + 8 * 3600000 + 1800000)) ∧
    (isWorkingTime c5cal (4 * 86400000 + 8 * 3600000 + 1800000) = false →
      (∀ r, nextWorkingTimeAfter c5cal (4 * 86400000 + 8 * 3600000 + 1800000) =
          Except.ok r →
        isScanStart c5cal.shifts (4 * 86400000 + 8 * 3600000 + 1800000) 7 r ∧
        ∀ x, isScanStart c5cal.shifts (4 * 86400000 + 8 * 3600000 + 1800000) 7 x →
          r ≤ x) ∧
      (nextWorkingTimeAfter c5cal (4 * 86400000 + 8 * 3600000 + 1800000) =
          Except.error noWorkErrMsg ↔
        ∀ x, ¬ isScanStart c5cal.shifts (4 * 86400000 + 8 * 3600000 + 1800000) 7 x))) :=
  ⟨by decide, c5_nextWorkingTimeAfter_scan_spec c5cal
    (4 * 86400000 + 8 * 3600000 + 1800000) (by decide)⟩

def c4a : WorkOrder :=
  { docId := "A", docType := "workOrder",
    data := { workOrderNumber := "A", manufacturingOrderId := "MO-4",
              workCenterId := "WC-4", startDate := 100, endDate := 200,
              durationMinutes := 1, isMaintenance := false,
              dependsOnWorkOrderIds := ["Z"] } }

def c4b : WorkOrder :=
  { docId := "B", docType := "workOrder",
    data := { workOrderNumber := "B", manufacturingOrderId := "MO-4",
              workCenterId := "WC-4", startDate := 100, endDate := 200,
              durationMinutes := 1, isMaintenance := false,
              dependsOnWorkOrderIds := [] } }

def c4z : WorkOrder :=
  { docId := "Z", docType := "workOrder",
    data := { workOrderNumber := "Z", manufacturingOrderId := "MO-4",
              workCenterId := "WC-4", startDate := 200, endDate := 300,
              durationMinutes := 1, isMaintenance := false,
              dependsOnWorkOrderIds := [] } }

/-- C4 counterexample: the claim asserts that any two orders with no
dependency relation and identical planned starts always appear in ascending id
order in the output.  Orders `A` (start 100, depends on `Z`) and `B` (start
100, no dependencies) have no dependency relation and equal planned starts,
and `A`'s id precedes `B`'s, yet the output is `[B, Z, A]`: `A` is ordered
after `B` because it only becomes ready after `Z` (start 200) completes -
queue readiness order, not the tie-break, decides the output position. -/
theorem c4_global_tiebreak_counterexample :
    sortWorkOrders [c4a, c4b, c4z] = Except.ok [c4b, c4z, c4a] ∧
    c4a.data.startDate = c4b.data.startDate ∧
    c4b.docId ∉ c4a.data.dependsOnWorkOrderIds ∧
    c4a.docId ∉ c4b.data.dependsOnWorkOrderIds ∧
    strLe c4a.docId c4b.docId = true ∧
    c4a ≠ c4b := by
  refine ⟨by decide, by decide, by decide, by decide, by decide, by decide⟩

/-! Machinery for the amended C4. -/

/-- Ties in `woLeRel` force equal ids. -/
theorem woLeRel_antisymm_docId {a b : WorkOrder} (h1 : woLeRel a b)
    (h2 : woLeRel b a) : a.docId = b.docId := by
  rcases h1 with h1 | ⟨h1e, h1c⟩
  · rcases h2 with h2 | ⟨h2e, _⟩
    · exact absurd h2 (lt_asymm h1)
    · exact absurd h1 (h2e ▸ lt_irrefl _)
  · rcases h2 with h2 | ⟨h2e, h2c⟩
    · exact absurd h2 (h1e ▸ lt_irrefl _)
    · exact String.ext (charsLe_antisymm _ _ h1c h2c)

/-- A permutation that is sorted on both sides, over elements with distinct
ids, is unique. -/
theorem sorted_perm_unique : ∀ (l1 l2 : List WorkOrder),
    l1.Perm l2 → List.Pairwise woLeRel l1 → List.Pairwise woLeRel l2 →
    (∀ x ∈ l1, ∀ y ∈ l1, x.docId = y.docId → x = y) → l1 = l2 := by
  intro l1
  induction l1 with
  | nil => intro l2 hp _ _ _; exact (hp.nil_eq).symm ▸ rfl
  | cons a t1 ih =>
    intro l2 hp hs1 hs2 hinj
    cases l2 with
    | nil => exact absurd hp.symm (by simp)
    | cons b t2 =>
      rcases List.pairwise_cons.mp hs1 with ⟨ha, ht1⟩
      rcases List.pairwise_cons.mp hs2 with ⟨hb, ht2⟩
      have hab : a = b := by
        by_contra hne
        have hain : a ∈ b :: t2 := hp.subset (List.mem_cons_self a t1)
        have hbin : b ∈ a :: t1 := hp.symm.subset (List.mem_cons_self b t2)
        have hat2 : a ∈ t2 := by
          rcases List.mem_cons.mp hain with h | h
          · exact absurd h hne
          · exact h
        have hbt1 : b ∈ t1 := by
          rcases List.mem_cons.mp hbin with h | h
          · exact absurd h.symm hne
          · exact h
        have h1 : woLeRel a b := ha b hbt1
        have h2 : woLeRel b a := hb a hat2
        have hid : a.docId = b.docId := woLeRel_antisymm_docId h1 h2
        exact hne (hinj a (List.mem_cons_self a t1) b (List.mem_cons.mpr (Or.inr hbt1)) hid)
      subst hab
      have hpt : t1.Perm t2 := hp.cons_inv
      have : t1 = t2 := by
        apply ih t2 hpt ht1 ht2
        intro x hx y hy
        exact hinj x (List.mem_cons.mpr (Or.inr hx)) y (List.mem_cons.mpr (Or.inr hy))
      rw [this]

theorem addKey_mem (ks : List String) (k id : String) :
    id ∈ addKey ks k ↔ (id ∈ ks ∨ id = k) := by
  unfold addKey
  by_cases h : ks.contains k
  · rw [if_pos h]
    constructor
    · exact Or.inl
    · rintro (h2 | h2)
      · exact h2
      · rw [h2]; exact List.mem_of_elem_eq_true h
  · rw [if_neg h]
    simp

theorem mapKeys_go_mem (l : List WorkOrder) (acc : List String) (id : String) :
    id ∈ l.foldl (fun ks wo => addKey ks wo.docId) acc ↔
      (id ∈ acc ∨ id ∈ l.map (fun wo => wo.docId)) := by
  induction l generalizing acc with
  | nil => simp
  | cons a l ih =>
    simp only [List.foldl_cons, List.map_cons, List.mem_cons]
    rw [ih (addKey acc a.docId), addKey_mem]
    tauto

theorem mapKeys_mem (wos : List WorkOrder) (id : String) :
    id ∈ mapKeys wos ↔ id ∈ wos.map (fun wo => wo.docId) := by
  unfold mapKeys
  rw [mapKeys_go_mem]
  simp

theorem addKey_nodup (ks : List String) (k : String) (h : ks.Nodup) :
    (addKey ks k).Nodup := by
  unfold addKey
  by_cases hc : ks.contains k
  · rw [if_pos hc]; exact h
  · rw [if_neg hc]
    rw [List.nodup_append]
    refine ⟨h, List.nodup_singleton k, ?_⟩
    intro x hx
    simp only [List.mem_singleton]
    intro he
    rw [he] at hx
    exact hc (List.elem_eq_true_of_mem hx)

theorem mapKeys_go_nodup (l : List WorkOrder) (acc : List String) (h : acc.Nodup) :
    (l.foldl (fun ks wo => addKey ks wo.docId) acc).Nodup := by
  induction l generalizing acc with
  | nil => exact h
  | cons a l ih => exact ih _ (addKey_nodup acc a.docId h)

theorem mapKeys_nodup (wos : List WorkOrder) : (mapKeys wos).Nodup :=
  mapKeys_go_nodup wos [] List.nodup_nil

theorem alGet_mapped (ks : List String) (f : String → Int) (id : String) :
    alGet (ks.map (fun k => (k, f k))) id =
      if id ∈ ks then some (f id) else none := by
  induction ks with
  | nil => simp [alGet]
  | cons k ks ih =>
    simp only [List.map_cons, alGet]
    by_cases h : id = k
    · rw [if_pos h, h, if_pos (List.mem_cons_self k ks)]
    · rw [if_neg h, ih]
      by_cases h2 : id ∈ ks
      · rw [if_pos h2, if_pos (List.mem_cons.mpr (Or.inr h2))]
      · rw [if_neg h2, if_neg]
        intro hc
        rcases List.mem_cons.mp hc with hc | hc
        · exact h hc
        · exact h2 hc

theorem alGet_initInDegree (wos : List WorkOrder) (id : String) :
    alGet (initInDegree wos) id =
      if id ∈ mapKeys wos then some (depsCount wos id) else none := by
  unfold initInDegree
  exact alGet_mapped (mapKeys wos) (depsCount wos) id

/-- With distinct ids, the in-degree entry of a member is the length of its
own dependency list. -/
theorem depsCount_eq (wos : List WorkOrder) (x : WorkOrder) (hx : x ∈ wos)
    (hn : (wos.map (fun wo => wo.docId)).Nodup) :
    depsCount wos x.docId = (x.data.dependsOnWorkOrderIds.length : Int) := by
  induction wos with
  | nil => cases hx
  | cons a rest ih =>
    rw [List.map_cons, List.nodup_cons] at hn
    rcases hn with ⟨hna, hnr⟩
    rcases List.mem_cons.mp hx with hxa | hxr
    · subst hxa
      unfold depsCount
      have hrest : rest.filter (fun wo => decide (wo.docId = x.docId)) = [] := by
        rw [List.filter_eq_nil_iff]
        intro wo hwo
        simp only [decide_eq_true_eq]
        intro he
        exact hna (List.mem_map.mpr ⟨wo, hwo, he.symm ▸ rfl⟩)
      simp [List.filter_cons, hrest]
    · have hne : decide (a.docId = x.docId) = false := by
        simp only [decide_eq_false_iff_not]
        intro he
        exact hna (List.mem_map.mpr ⟨x, hxr, he ▸ rfl⟩)
      have hrec := ih hxr hnr
      unfold depsCount at hrec ⊢
      simpa [List.filter_cons, hne] using hrec

/-- In a `woLeRel`-pairwise list, `x` precedes `y` whenever `y` is not `≤ x`. -/
theorem pairwise_before : ∀ (l : List WorkOrder) (x y : WorkOrder),
    List.Pairwise woLeRel l → x ∈ l → y ∈ l → x ≠ y → ¬ woLeRel y x →
    List.Sublist [x, y] l := by
  intro l
  induction l with
  | nil => intro x y _ hx; cases hx
  | cons a t ih =>
    intro x y hp hx hy hxy hn
    rcases List.pairwise_cons.mp hp with ⟨ha, ht⟩
    by_cases hax : a = x
    · subst hax
      have hyt : y ∈ t := by
        rcases List.mem_cons.mp hy with h | h
        · exact absurd h.symm hxy
        · exact h
      exact List.Sublist.cons₂ a (List.singleton_sublist.mpr hyt)
    · have hxt : x ∈ t := by
        rcases List.mem_cons.mp hx with h | h
        · exact absurd h.symm hax
        · exact h
      by_cases hay : a = y
      · subst hay
        exact absurd (ha x hxt) hn
      · have hyt : y ∈ t := by
          rcases List.mem_cons.mp hy with h | h
          · exact absurd h.symm hay
          · exact h
        exact List.Sublist.cons a (ih x y ht hxt hyt hxy hn)

/-- Child processing only appends to the queue. -/
theorem foldl_childStep_queue (lk : String → Option WorkOrder) :
    ∀ (cs : List String) (st : List (String × Int) × List WorkOrder),
    ∃ e, (cs.foldl (kahnChildStep lk) st).2 = st.2 ++ e := by
  intro cs
  induction cs with
  | nil => intro st; exact ⟨[], by simp⟩
  | cons c cs ih =>
    intro st
    rcases ih (kahnChildStep lk st c) with ⟨e2, he2⟩
    simp only [List.foldl_cons]
    rw [he2]
    unfold kahnChildStep
    by_cases h : alGet (alDec st.1 c) c = some 0
    · rw [if_pos h]
      cases hlk : lk c with
      | some x => exact ⟨x :: e2, by simp⟩
      | none => exact ⟨e2, rfl⟩
    · rw [if_neg h]
      exact ⟨e2, rfl⟩

theorem kahnStep_queue_extend (ch : String → List String)
    (lk : String → Option WorkOrder) (ind : List (String × Int))
    (queue : List WorkOrder) (w : WorkOrder) :
    ∃ e, (kahnStep ch lk ind queue w).2 = queue ++ e :=
  foldl_childStep_queue lk (ch w.docId) (ind, queue)

/-- Queue elements end up in the emitted output, preserving their relative
order (the queue is FIFO and children are only appended at the back). -/
theorem kahnFuel_queue_sublist (ch : String → List String)
    (lk : String → Option WorkOrder) :
    ∀ (fuel : Nat) (ind : List (String × Int)) (queue out : List WorkOrder),
    kahnMu ind queue ≤ fuel →
    ∃ rest, kahnFuel ch lk fuel ind queue out = out ++ rest ∧ queue.Sublist rest := by
  intro fuel
  induction fuel with
  | zero =>
    intro ind queue out hmu
    have : queue = [] := by
      have := Nat.le_zero.mp hmu
      unfold kahnMu at this
      cases queue with
      | nil => rfl
      | cons a q => simp at this
    subst this
    exact ⟨[], by simp [kahnFuel], List.Sublist.refl []⟩
  | succ fuel ih =>
    intro ind queue out hmu
    cases queue with
    | nil => exact ⟨[], by simp [kahnFuel], List.Sublist.refl []⟩
    | cons w rest0 =>
      have hmu2 : kahnMu (kahnStep ch lk ind rest0 w).1 (kahnStep ch lk ind rest0 w).2 ≤ fuel := by
        have h1 := kahnStep_mu_le ch lk ind rest0 w
        unfold kahnMu at hmu ⊢
        simp only [List.length_cons] at hmu
        omega
      rcases ih (kahnStep ch lk ind rest0 w).1 (kahnStep ch lk ind rest0 w).2
        (out ++ [w]) hmu2 with ⟨r2, hr2, hsub2⟩
      rcases kahnStep_queue_extend ch lk ind rest0 w with ⟨e, he⟩
      refine ⟨w :: r2, ?_, ?_⟩
      · show kahnFuel ch lk (fuel + 1) ind (w :: rest0) out = out ++ w :: r2
        simp only [kahnFuel]
        rw [hr2]
        simp
      · apply List.Sublist.cons₂
        have h1 : rest0.Sublist (kahnStep ch lk ind rest0 w).2 := by
          rw [he]; exact List.sublist_append_left rest0 e
        exact h1.trans hsub2

/-- A successful sort returns exactly the Kahn traversal of the pre-sorted
input. -/
theorem sortWorkOrders_ok_topo {wos topo : List WorkOrder}
    (h : sortWorkOrders wos = Except.ok topo) :
    topo = kahnAux (childrenOf (wos.insertionSort woLeRel))
      (idLookup (wos.insertionSort woLeRel))
      (initInDegree (wos.insertionSort woLeRel))
      ((wos.insertionSort woLeRel).filter
        (fun wo =>
          decide (alGet (initInDegree (wos.insertionSort woLeRel)) wo.docId = some 0)))
      [] := by
  unfold sortWorkOrders at h
  dsimp only [] at h
  split at h
  · cases h
  · exact (Except.ok.injEq _ _).mp h.symm

/-- C4 amended: `sortWorkOrders` is deterministic with respect to the input
collection's order — for any two permutations of the same distinct-id work
orders it returns the identical result — and the id-ascending tie-break on
equal planned starts governs the output order of two orders that both have no
dependencies at all (they are seeded into the queue in pre-sorted order, and
the FIFO queue preserves it).  For two merely *dependency-unrelated* orders
the tie-break does not govern the final output order, because an order with
dependencies enters the queue only when it becomes ready (see the
counterexample). -/
theorem c4_sort_deterministic_and_seed_tiebreak :
    (∀ wos1 wos2 : List WorkOrder, wos1.Perm wos2 →
      (wos1.map (fun wo => wo.docId)).Nodup →
      sortWorkOrders wos1 = sortWorkOrders wos2) ∧
    (∀ (wos topo : List WorkOrder) (x y : WorkOrder),
      sortWorkOrders wos = Except.ok topo →
      (wos.map (fun wo => wo.docId)).Nodup →
      x ∈ wos → y ∈ wos →
      x.data.dependsOnWorkOrderIds = [] → y.data.dependsOnWorkOrderIds = [] →
      x.data.startDate = y.data.startDate → x ≠ y →
      strLe x.docId y.docId = true →
      List.Sublist [x, y] topo) := by
  constructor
  · intro wos1 wos2 hp hn
    have hseq : wos1.insertionSort woLeRel = wos2.insertionSort woLeRel := by
      apply sorted_perm_unique
      · exact (List.perm_insertionSort woLeRel wos1).trans
          (hp.trans (List.perm_insertionSort woLeRel wos2).symm)
      · exact List.sorted_insertionSort woLeRel wos1
      · exact List.sorted_insertionSort woLeRel wos2
      · intro x hx y hy hid
        exact List.inj_on_of_nodup_map hn
          ((List.perm_insertionSort woLeRel wos1).subset hx)
          ((List.perm_insertionSort woLeRel wos1).subset hy) hid
    unfold sortWorkOrders
    rw [hseq]
    unfold checkForCyclicDependencies
    rw [hp.length_eq]
  · intro wos topo x y hok hn hx hy hdx hdy hstart hxy hid
    have hperm : (wos.insertionSort woLeRel).Perm wos := List.perm_insertionSort woLeRel wos
    have hns : ((wos.insertionSort woLeRel).map (fun wo => wo.docId)).Nodup :=
      (hperm.map (fun wo => wo.docId)).nodup_iff.mpr hn
    have hxs : x ∈ wos.insertionSort woLeRel := hperm.mem_iff.mpr hx
    have hys : y ∈ wos.insertionSort woLeRel := hperm.mem_iff.mpr hy
    have hnyx : ¬ woLeRel y x := by
      intro hyx
      rcases hyx with h1 | ⟨h1e, h1c⟩
      · exact absurd h1 (hstart ▸ lt_irrefl _)
      · have : y.docId = x.docId := String.ext (charsLe_antisymm _ _ h1c hid)
        exact hxy (List.inj_on_of_nodup_map hn hx hy this.symm)
    have hsubSorted : List.Sublist [x, y] (wos.insertionSort woLeRel) :=
      pairwise_before _ x y (List.sorted_insertionSort woLeRel wos) hxs hys hxy hnyx
    have hseedx : decide (alGet (initInDegree (wos.insertionSort woLeRel)) x.docId =
        some 0) = true := by
      apply decide_eq_true
      rw [alGet_initInDegree, if_pos ((mapKeys_mem _ _).mpr
        (List.mem_map.mpr ⟨x, hxs, rfl⟩))]
      rw [depsCount_eq _ x hxs hns, hdx]
      rfl
    have hseedy : decide (alGet (initInDegree (wos.insertionSort woLeRel)) y.docId =
        some 0) = true := by
      apply decide_eq_true
      rw [alGet_initInDegree, if_pos ((mapKeys_mem _ _).mpr
        (List.mem_map.mpr ⟨y, hys, rfl⟩))]
      rw [depsCount_eq _ y hys hns, hdy]
      rfl
    have hsubSeeds : List.Sublist [x, y]
        ((wos.insertionSort woLeRel).filter
          (fun wo =>
            decide (alGet (initInDegree (wos.insertionSort woLeRel)) wo.docId = some 0))) := by
      have := List.Sublist.filter
        (fun wo =>
          decide (alGet (initInDegree (wos.insertionSort woLeRel)) wo.docId = some 0))
        hsubSorted
      rwa [List.filter_cons, List.filter_cons, hseedx, hseedy] at this
    rcases kahnFuel_queue_sublist (childrenOf (wos.insertionSort woLeRel))
      (idLookup (wos.insertionSort woLeRel)) (kahnMu _ _) _ _ [] le_rfl with
      ⟨rest, hrest, hsub⟩
    rw [sortWorkOrders_ok_topo hok]
    unfold kahnAux
    rw [hrest]
    simp only [List.nil_append]
    exact hsubSeeds.trans hsub

def c4x : WorkOrder :=
  { docId := "WA", docType := "workOrder",
    data := { workOrderNumber := "WA", manufacturingOrderId := "MO-4",
              workCenterId := "WC-4", startDate := 0, endDate := 60000,
              durationMinutes := 1, isMaintenance := false,
              dependsOnWorkOrderIds := [] } }

def c4y : WorkOrder :=
  { docId := "WB", docType := "workOrder",
    data := { workOrderNumber := "WB", manufacturingOrderId := "MO-4",
              workCenterId := "WC-4", startDate := 0, endDate := 60000,
              durationMinutes := 1, isMaintenance := false,
              dependsOnWorkOrderIds := [] } }

/-- Witness for C4 amended: the two conjuncts applied to concrete inputs — a
permuted pair of no-dependency orders with equal planned starts. -/
theorem c4_sort_deterministic_and_seed_tiebreak_witness :
    sortWorkOrders [c4y, c4x] = sortWorkOrders [c4x, c4y] ∧
    List.Sublist [c4x, c4y] [c4x, c4y] :=
  ⟨c4_sort_deterministic_and_seed_tiebreak.1 [c4y, c4x] [c4x, c4y]
    (by decide) (by decide),
   c4_sort_deterministic_and_seed_tiebreak.2 [c4y, c4x] [c4x, c4y] c4x c4y
    (by decide) (by decide) (by decide) (by decide) (by decide) (by decide)
    (by decide) (by decide) (by decide)⟩

/-! Machinery for C3 and C9: a full invariant of the Kahn traversal. -/

def kahnKeys (sorted : List WorkOrder) : List String :=
  sorted.map (fun wo => wo.docId)

/-- Total in-degree decrement an emitted prefix `out` has applied to `id`: one
per occurrence of `id` in an emitted order's child list. -/
def emitDec (sorted : List WorkOrder) (out : List WorkOrder) (id : String) : Nat :=
  (out.map (fun p => (childrenOf sorted p.docId).count id)).sum

theorem emitDec_nil (sorted : List WorkOrder) (id : String) :
    emitDec sorted [] id = 0 := rfl

theorem emitDec_snoc (sorted : List WorkOrder) (out : List WorkOrder)
    (w : WorkOrder) (id : String) :
    emitDec sorted (out ++ [w]) id =
      emitDec sorted out id + (childrenOf sorted w.docId).count id := by
  unfold emitDec
  simp

theorem alGet_alDec (l : List (String × Int)) (k id : String) :
    alGet (alDec l k) id =
      if id = k then (alGet l k).map (fun v => v - 1) else alGet l id := by
  induction l with
  | nil => simp [alDec, alGet]
  | cons e rest ih =>
    obtain ⟨k2, v⟩ := e
    by_cases hk : k = k2
    · subst hk
      simp only [alDec, if_pos rfl]
      by_cases hid : id = k
      · subst hid
        simp [alGet]
      · simp [alGet, hid]
    · simp only [alDec, if_neg hk]
      by_cases hid : id = k2
      · subst hid
        have hik : ¬ id = k := fun h => hk (h ▸ rfl)
        simp [alGet, hik]
      · simp only [alGet, if_neg hid]
        rw [ih]
        by_cases hidk : id = k
        · subst hidk
          simp [alGet, hk]
        · simp [hidk]

/-- The in-degree component of the child fold is a plain multi-decrement. -/
def multiDec (ind : List (String × Int)) (cs : List String) : List (String × Int) :=
  cs.foldl alDec ind

theorem foldl_childStep_fst (lk : String → Option WorkOrder) :
    ∀ (cs : List String) (st : List (String × Int) × List WorkOrder),
    (cs.foldl (kahnChildStep lk) st).1 = multiDec st.1 cs := by
  intro cs
  induction cs with
  | nil => intro st; rfl
  | cons c cs ih =>
    intro st
    simp only [List.foldl_cons]
    rw [ih]
    unfold multiDec
    simp only [List.foldl_cons]
    congr 1
    unfold kahnChildStep
    by_cases h : alGet (alDec st.1 c) c = some 0
    · rw [if_pos h]
      cases hlk : lk c <;> simp
    · rw [if_neg h]

theorem alGet_multiDec (cs : List String) :
    ∀ (l : List (String × Int)) (id : String),
    alGet (multiDec l cs) id =
      (alGet l id).map (fun v => v - (cs.count id : Int)) := by
  induction cs with
  | nil =>
    intro l id
    show alGet l id = _
    cases h : alGet l id <;> simp
  | cons c cs ih =>
    intro l id
    show alGet (multiDec (alDec l c) cs) id = _
    rw [ih, alGet_alDec]
    by_cases hid : id = c
    · subst hid
      rw [if_pos rfl]
      cases h : alGet l id <;> simp [List.count_cons]
      omega
    · rw [if_neg hid]
      have : (c == id) = false := by
        simp only [beq_eq_false_iff_ne, ne_eq]
        exact fun h => hid h.symm
      cases h : alGet l id <;> simp [List.count_cons, this]

/-- Reading the `idLookup` map: a hit is the last input order with that id;
ids present in the input always hit. -/
theorem idLookup_go_spec (l : List WorkOrder) :
    ∀ (m : String → Option WorkOrder) (id : String),
    (∀ x, (l.foldl (fun m wo => fmSet m wo.docId wo) m) id = some x →
      (x ∈ l ∧ x.docId = id) ∨ m id = some x) ∧
    (id ∉ l.map (fun wo => wo.docId) →
      (l.foldl (fun m wo => fmSet m wo.docId wo) m) id = m id) ∧
    (id ∈ l.map (fun wo => wo.docId) →
      ∃ x, (l.foldl (fun m wo => fmSet m wo.docId wo) m) id = some x ∧
        x ∈ l ∧ x.docId = id) := by
  induction l with
  | nil =>
    intro m id
    exact ⟨fun x h => Or.inr h, fun _ => rfl, fun h => absurd h (by simp)⟩
  | cons wo t ih =>
    intro m id
    refine ⟨?_, ?_, ?_⟩
    · intro x hx
      simp only [List.foldl_cons] at hx
      rcases (ih (fmSet m wo.docId wo) id).1 x hx with h | h
      · exact Or.inl ⟨List.mem_cons.mpr (Or.inr h.1), h.2⟩
      · unfold fmSet at h
        by_cases hid : id = wo.docId
        · rw [if_pos hid] at h
          have hwx : wo = x := by simpa using h
          subst hwx
          exact Or.inl ⟨List.mem_cons_self wo t, hid.symm⟩
        · rw [if_neg hid] at h
          exact Or.inr h
    · intro hnm
      simp only [List.foldl_cons]
      have hnt : id ∉ t.map (fun wo => wo.docId) := by
        intro h
        exact hnm (by simp only [List.map_cons, List.mem_cons]; exact Or.inr h)
      have hne : ¬ id = wo.docId := by
        intro h
        exact hnm (by simp only [List.map_cons, List.mem_cons]; exact Or.inl h)
      rw [(ih (fmSet m wo.docId wo) id).2.1 hnt]
      unfold fmSet
      rw [if_neg hne]
    · intro hm
      simp only [List.foldl_cons]
      by_cases hnt : id ∈ t.map (fun wo => wo.docId)
      · rcases (ih (fmSet m wo.docId wo) id).2.2 hnt with ⟨x, hx, hxt, hxid⟩
        exact ⟨x, hx, List.mem_cons.mpr (Or.inr hxt), hxid⟩
      · have hide : id = wo.docId := by
          rcases (by simpa using hm : id = wo.docId ∨ ∃ a ∈ t, a.docId = id) with
            h | ⟨a, hat, haid⟩
          · exact h
          · exact absurd (List.mem_map.mpr ⟨a, hat, haid⟩) hnt
        rw [(ih (fmSet m wo.docId wo) id).2.1 hnt]
        unfold fmSet
        rw [if_pos hide]
        exact ⟨wo, rfl, List.mem_cons_self wo t, hide.symm⟩

theorem idLookup_hit (wos : List WorkOrder) (id : String)
    (h : id ∈ wos.map (fun wo => wo.docId)) :
    ∃ x, idLookup wos id = some x ∧ x ∈ wos ∧ x.docId = id :=
  (idLookup_go_spec wos fmEmpty id).2.2 h

theorem filterMap_eq_replicate (deps : List String) (q cid : String) :
    deps.filterMap (fun pid => if pid = q then some cid else none) =
      List.replicate (deps.count q) cid := by
  induction deps with
  | nil => simp
  | cons p t ih =>
    by_cases h : p = q
    · subst h
      rw [List.filterMap_cons]
      simp only [if_pos rfl]
      rw [ih, List.count_cons]
      simp [List.replicate_succ]
    · rw [List.filterMap_cons]
      simp only [if_neg h]
      rw [ih, List.count_cons]
      have : (p == q) = false := by simpa using h
      simp [this]

/-- With distinct ids, a sum over the input that filters on one id picks out
the unique order carrying it. -/
theorem sum_pick_unique (sorted : List WorkOrder) (w : WorkOrder)
    (hw : w ∈ sorted) (hns : (kahnKeys sorted).Nodup) (g : WorkOrder → Nat) :
    ((sorted.map (fun wo => if wo.docId == w.docId then g wo else 0)).sum) = g w := by
  induction sorted with
  | nil => cases hw
  | cons a t ih =>
    have hns2 : (kahnKeys t).Nodup := by
      unfold kahnKeys at hns ⊢
      rw [List.map_cons, List.nodup_cons] at hns
      exact hns.2
    have hna : a.docId ∉ t.map (fun wo => wo.docId) := by
      unfold kahnKeys at hns
      rw [List.map_cons, List.nodup_cons] at hns
      exact hns.1
    rcases List.mem_cons.mp hw with hwa | hwt
    · subst hwa
      simp only [List.map_cons, List.sum_cons, beq_self_eq_true, if_pos]
      have : (t.map (fun wo => if wo.docId == w.docId then g wo else 0)).sum = 0 := by
        apply List.sum_eq_zero
        intro x hx
        rcases List.mem_map.mp hx with ⟨wo, hwo, hval⟩
        have : (wo.docId == w.docId) = false := by
          simp only [beq_eq_false_iff_ne, ne_eq]
          intro he
          exact hna (List.mem_map.mpr ⟨wo, hwo, he⟩)
        rw [← hval, this]
        simp
      rw [this]
      omega
    · have hne : (a.docId == w.docId) = false := by
        simp only [beq_eq_false_iff_ne, ne_eq]
        intro he
        exact hna (List.mem_map.mpr ⟨w, hwt, he.symm⟩)
      simp only [List.map_cons, List.sum_cons, hne]
      simp only [Bool.false_eq_true, if_false, Nat.zero_add]
      exact ih hwt hns2

/-- The number of occurrences of `w`'s id in the child list of key `q` equals
the number of occurrences of `q` among `w`'s dependencies. -/
theorem childrenOf_count (sorted : List WorkOrder) (hns : (kahnKeys sorted).Nodup)
    (q : String) (hq : q ∈ kahnKeys sorted) (w : WorkOrder) (hw : w ∈ sorted) :
    (childrenOf sorted q).count w.docId = w.data.dependsOnWorkOrderIds.count q := by
  unfold childrenOf
  have hc : (sorted.map (fun wo => wo.docId)).contains q = true :=
    List.elem_eq_true_of_mem hq
  rw [if_pos hc]
  rw [List.count_flatMap]
  have hmapeq : (sorted.map
      (List.count w.docId ∘ fun wo =>
        wo.data.dependsOnWorkOrderIds.filterMap
          (fun pid => if pid = q then some wo.docId else none))) =
      sorted.map (fun wo =>
        if wo.docId == w.docId then wo.data.dependsOnWorkOrderIds.count q else 0) := by
    apply List.map_congr_left
    intro wo hwo
    simp only [Function.comp]
    rw [filterMap_eq_replicate, List.count_replicate]
  rw [hmapeq, sum_pick_unique sorted w hw hns]

theorem sum_map_add (l : List String) (f g : String → Int) :
    (l.map (fun x => f x + g x)).sum = (l.map f).sum + (l.map g).sum := by
  induction l with
  | nil => simp
  | cons a t ih => simp [ih]; ring

theorem sum_indicator (es : List String) (d : String) (hn : es.Nodup) :
    (es.map (fun e => if d == e then (1 : Int) else 0)).sum =
      if d ∈ es then 1 else 0 := by
  induction es with
  | nil => simp
  | cons e t ih =>
    rw [List.nodup_cons] at hn
    by_cases hde : d = e
    · subst hde
      simp only [List.map_cons, List.sum_cons, beq_self_eq_true, if_pos]
      have : (t.map (fun e => if d == e then (1 : Int) else 0)).sum = 0 := by
        rw [ih hn.2, if_neg hn.1]
      rw [this]
      simp
    · have : (d == e) = false := by simpa using hde
      simp only [List.map_cons, List.sum_cons, this]
      rw [ih hn.2]
      simp only [Bool.false_eq_true, if_false, Int.zero_add]
      by_cases hdt : d ∈ t
      · rw [if_pos hdt, if_pos (List.mem_cons.mpr (Or.inr hdt))]
      · rw [if_neg hdt, if_neg]
        intro h
        rcases List.mem_cons.mp h with h | h
        · exact hde h
        · exact hdt h

/-- A sum of per-id occurrence counts over distinct ids is bounded by the
total, with equality forcing every dependency id to be present. -/
theorem sum_count_nodup (ds : List String) :
    ∀ (es : List String), es.Nodup →
    ((es.map (fun e => (ds.count e : Int))).sum ≤ (ds.length : Int)) ∧
    ((ds.length : Int) ≤ (es.map (fun e => (ds.count e : Int))).sum →
      ∀ d ∈ ds, d ∈ es) := by
  induction ds with
  | nil =>
    intro es hn
    constructor
    · have : (es.map (fun e => (List.count e ([] : List String) : Int))).sum = 0 := by
        apply List.sum_eq_zero
        intro x hx
        rcases List.mem_map.mp hx with ⟨e, he, hval⟩
        simp at hval
        omega
      rw [this]
      simp
    · intro _ d hd
      cases hd
  | cons d t ih =>
    intro es hn
    have hsplit : (es.map (fun e => ((d :: t).count e : Int))).sum =
        (es.map (fun e => (t.count e : Int))).sum +
          (es.map (fun e => if d == e then (1 : Int) else 0)).sum := by
      rw [← sum_map_add]
      apply congrArg
      apply List.map_congr_left
      intro e he
      rw [List.count_cons]
      push_cast
      ring
    rcases ih es hn with ⟨ihle, ihimp⟩
    have hind := sum_indicator es d hn
    constructor
    · rw [hsplit, hind]
      simp only [List.length_cons]
      push_cast
      by_cases hmem : d ∈ es
      · rw [if_pos hmem]; omega
      · rw [if_neg hmem]; omega
    · intro hge d2 hd2
      rw [hsplit, hind] at hge
      simp only [List.length_cons] at hge
      push_cast at hge
      have hindle : (if d ∈ es then (1 : Int) else 0) ≤ 1 := by
        by_cases hmem : d ∈ es
        · rw [if_pos hmem]
        · rw [if_neg hmem]; omega
      have htge : (t.length : Int) ≤ (es.map (fun e => (t.count e : Int))).sum := by omega
      rcases List.mem_cons.mp hd2 with hdd | hdt
      · subst hdd
        by_cases hmem : d2 ∈ es
        · exact hmem
        · exfalso
          rw [if_neg hmem] at hge
          omega
      · exact ihimp htge d2 hdt

theorem depsCount_nonneg (wos : List WorkOrder) (id : String) :
    0 ≤ depsCount wos id := by
  unfold depsCount
  apply List.sum_nonneg
  intro x hx
  rcases List.mem_map.mp hx with ⟨wo, _, hval⟩
  rw [← hval]
  positivity

/-- When the emitted prefix has decremented `w`'s in-degree entry down to its
full dependency count, every dependency id of `w` has been emitted. -/
theorem emitDec_ge_imp (sorted : List WorkOrder) (hns : (kahnKeys sorted).Nodup)
    (w : WorkOrder) (hw : w ∈ sorted) (out : List WorkOrder)
    (hout : ∀ o ∈ out, o ∈ sorted)
    (houtn : (out.map (fun o => o.docId)).Nodup)
    (hge : (w.data.dependsOnWorkOrderIds.length : Int) ≤
      (emitDec sorted out w.docId : Int)) :
    ∀ pid ∈ w.data.dependsOnWorkOrderIds, pid ∈ out.map (fun o => o.docId) := by
  have hrw : (emitDec sorted out w.docId : Int) =
      ((out.map (fun o => o.docId)).map
        (fun q => (w.data.dependsOnWorkOrderIds.count q : Int))).sum := by
    unfold emitDec
    rw [Nat.cast_list_sum]
    rw [List.map_map, List.map_map]
    apply congrArg List.sum
    apply List.map_congr_left
    intro p hp
    simp only [Function.comp]
    rw [childrenOf_count sorted hns p.docId
      (List.mem_map.mpr ⟨p, hout p hp, rfl⟩) w hw]
  rw [hrw] at hge
  exact (sum_count_nodup w.data.dependsOnWorkOrderIds
    (out.map (fun o => o.docId)) houtn).2 hge

/-- Every emitted order's dependency ids were emitted strictly before it. -/
def DepsBefore (out : List WorkOrder) : Prop :=
  ∀ (i : Nat) (h : i < out.length),
    ∀ pid ∈ (out.get ⟨i, h⟩).data.dependsOnWorkOrderIds,
      pid ∈ (out.take i).map (fun o => o.docId)

theorem DepsBefore_nil : DepsBefore [] := by
  intro i h
  simp at h

theorem DepsBefore_snoc (out : List WorkOrder) (w : WorkOrder)
    (hdb : DepsBefore out)
    (hw : ∀ pid ∈ w.data.dependsOnWorkOrderIds, pid ∈ out.map (fun o => o.docId)) :
    DepsBefore (out ++ [w]) := by
  intro i h pid hpid
  have hlen : i < out.length + 1 := by
    simpa using h
  by_cases hi : i < out.length
  · have hget : (out ++ [w]).get ⟨i, h⟩ = out.get ⟨i, hi⟩ := by
      simp only [List.get_eq_getElem]
      exact List.getElem_append_left hi
    rw [hget] at hpid
    have htake : (out ++ [w]).take i = out.take i :=
      List.take_append_of_le_length (le_of_lt hi)
    rw [htake]
    exact hdb i hi pid hpid
  · have hieq : i = out.length := by omega
    have hget : (out ++ [w]).get ⟨i, h⟩ = w := by
      simp only [List.get_eq_getElem]
      subst hieq
      rw [List.getElem_append_right (le_refl out.length)]
      simp
    rw [hget] at hpid
    subst hieq
    rw [List.take_left]
    exact hw pid hpid

theorem kahnChildStep_fst (lk : String → Option WorkOrder)
    (st : List (String × Int) × List WorkOrder) (c : String) :
    (kahnChildStep lk st c).1 = alDec st.1 c := by
  unfold kahnChildStep
  by_cases h : alGet (alDec st.1 c) c = some 0
  · rw [if_pos h]
    cases lk c <;> rfl
  · rw [if_neg h]

/-- The loop invariant of the Kahn traversal over `sorted` (distinct ids): the
in-degree entries track `depsCount - emitDec`, the emitted list and queue hold
distinct input orders, an id has been enqueued exactly when its tracked value
has reached zero, and every emitted order's dependencies were emitted strictly
before it. -/
def KInv (sorted : List WorkOrder) (ind : List (String × Int))
    (queue out : List WorkOrder) : Prop :=
  (∀ id, alGet ind id =
      if id ∈ kahnKeys sorted
      then some (depsCount sorted id - (emitDec sorted out id : Int)) else none) ∧
  (∀ o ∈ out ++ queue, o ∈ sorted) ∧
  (((out ++ queue).map (fun o => o.docId)).Nodup) ∧
  (∀ id, id ∈ kahnKeys sorted →
    (id ∈ (out ++ queue).map (fun o => o.docId) ↔
      depsCount sorted id - (emitDec sorted out id : Int) ≤ 0)) ∧
  DepsBefore out

/-- Processing a child list preserves the invariant, converting the remaining
per-child credit into applied decrements. -/
theorem foldl_childStep_inv (sorted : List WorkOrder) (outB : List WorkOrder) :
    ∀ (cs : List String) (ind : List (String × Int)) (queue : List WorkOrder),
    (∀ id, alGet ind id =
        if id ∈ kahnKeys sorted
        then some (depsCount sorted id - (emitDec sorted outB id : Int) +
          (cs.count id : Int)) else none) →
    (∀ o ∈ outB ++ queue, o ∈ sorted) →
    (((outB ++ queue).map (fun o => o.docId)).Nodup) →
    (∀ id, id ∈ kahnKeys sorted →
      (id ∈ (outB ++ queue).map (fun o => o.docId) ↔
        depsCount sorted id - (emitDec sorted outB id : Int) +
          (cs.count id : Int) ≤ 0)) →
    ((∀ id, alGet (cs.foldl (kahnChildStep (idLookup sorted)) (ind, queue)).1 id =
        if id ∈ kahnKeys sorted
        then some (depsCount sorted id - (emitDec sorted outB id : Int)) else none) ∧
     (∀ o ∈ outB ++ (cs.foldl (kahnChildStep (idLookup sorted)) (ind, queue)).2,
        o ∈ sorted) ∧
     (((outB ++ (cs.foldl (kahnChildStep (idLookup sorted)) (ind, queue)).2).map
        (fun o => o.docId)).Nodup) ∧
     (∀ id, id ∈ kahnKeys sorted →
       (id ∈ (outB ++ (cs.foldl (kahnChildStep (idLookup sorted)) (ind, queue)).2).map
          (fun o => o.docId) ↔
         depsCount sorted id - (emitDec sorted outB id : Int) ≤ 0))) := by
  intro cs
  induction cs with
  | nil =>
    intro ind queue hM hO hU hE
    refine ⟨?_, hO, hU, ?_⟩
    · intro id
      have := hM id
      simpa using this
    · intro id hid
      have := hE id hid
      simpa using this
  | cons c cs ih =>
    intro ind queue hM hO hU hE
    simp only [List.foldl_cons]
    have hfst : (kahnChildStep (idLookup sorted) (ind, queue) c).1 = alDec ind c :=
      kahnChildStep_fst _ _ _
    have hM1 : ∀ id, alGet (alDec ind c) id =
        if id ∈ kahnKeys sorted
        then some (depsCount sorted id - (emitDec sorted outB id : Int) +
          (cs.count id : Int)) else none := by
      intro id
      rw [alGet_alDec]
      by_cases hidc : id = c
      · subst hidc
        rw [if_pos rfl, hM id]
        by_cases hk : id ∈ kahnKeys sorted
        · rw [if_pos hk, if_pos hk]
          simp only [Option.map]
          apply congrArg
          rw [List.count_cons]
          simp only [beq_self_eq_true, if_pos]
          push_cast
          ring
        · rw [if_neg hk, if_neg hk]
          rfl
      · rw [if_neg hidc, hM id]
        by_cases hk : id ∈ kahnKeys sorted
        · rw [if_pos hk, if_pos hk]
          apply congrArg
          rw [List.count_cons]
          have : (c == id) = false := by
            simp only [beq_eq_false_iff_ne, ne_eq]
            exact fun h => hidc h.symm
          rw [this]
          simp
        · rw [if_neg hk, if_neg hk]
    by_cases hz : alGet (alDec ind c) c = some 0
    · have hck : c ∈ kahnKeys sorted := by
        by_contra hck
        rw [hM1 c, if_neg hck] at hz
        cases hz
      have hval0 : depsCount sorted c - (emitDec sorted outB c : Int) +
          (cs.count c : Int) = 0 := by
        have := hM1 c
        rw [if_pos hck] at this
        rw [this] at hz
        simpa using hz
      rcases idLookup_hit sorted c hck with ⟨x, hx, hxin, hxid⟩
      have hstep : kahnChildStep (idLookup sorted) (ind, queue) c =
          (alDec ind c, queue ++ [x]) := by
        unfold kahnChildStep
        rw [if_pos hz, hx]
      rw [hstep]
      have hcnot : c ∉ (outB ++ queue).map (fun o => o.docId) := by
        intro hcmem
        have := (hE c hck).mp hcmem
        rw [List.count_cons] at this
        simp only [beq_self_eq_true, if_pos] at this
        push_cast at this
        omega
      apply ih (alDec ind c) (queue ++ [x])
      · intro id
        exact hM1 id
      · intro o ho
        rcases List.mem_append.mp ho with h | h
        · exact hO o (List.mem_append.mpr (Or.inl h))
        · rcases List.mem_append.mp h with h | h
          · exact hO o (List.mem_append.mpr (Or.inr h))
          · rw [List.mem_singleton.mp h]
            exact hxin
      · have hre : outB ++ (queue ++ [x]) = (outB ++ queue) ++ [x] := by
          rw [List.append_assoc]
        rw [hre, List.map_append]
        rw [List.nodup_append]
        refine ⟨hU, by simp, ?_⟩
        intro a ha
        simp only [List.map_cons, List.map_nil, List.mem_singleton]
        intro he
        rw [he, hxid] at ha
        exact hcnot ha
      · intro id hid
        have hre : outB ++ (queue ++ [x]) = (outB ++ queue) ++ [x] := by
          rw [List.append_assoc]
        rw [hre, List.map_append]
        by_cases hidc : id = c
        · subst hidc
          constructor
          · intro _
            omega
          · intro _
            apply List.mem_append.mpr
            right
            simp [hxid]
        · constructor
          · intro hmem
            rcases List.mem_append.mp hmem with h | h
            · have := (hE id hid).mp h
              rw [List.count_cons] at this
              have hcf : (c == id) = false := by
                simp only [beq_eq_false_iff_ne, ne_eq]
                exact fun h => hidc h.symm
              rw [hcf] at this
              simpa using this
            · simp only [List.map_cons, List.map_nil, List.mem_singleton] at h
              rw [hxid] at h
              exact absurd h hidc
          · intro hle
            apply List.mem_append.mpr
            left
            apply (hE id hid).mpr
            rw [List.count_cons]
            have hcf : (c == id) = false := by
              simp only [beq_eq_false_iff_ne, ne_eq]
              exact fun h => hidc h.symm
            rw [hcf]
            simpa using hle
    · have hstep : kahnChildStep (idLookup sorted) (ind, queue) c =
          (alDec ind c, queue) := by
        unfold kahnChildStep
        rw [if_neg hz]
      rw [hstep]
      apply ih (alDec ind c) queue
      · intro id
        rw [hM1 id]
      · exact hO
      · exact hU
      · intro id hid
        by_cases hidc : id = c
        · subst hidc
          have hvne : depsCount sorted id - (emitDec sorted outB id : Int) +
              (cs.count id : Int) ≠ 0 := by
            intro h0
            apply hz
            rw [hM1 id, if_pos hid, h0]
          constructor
          · intro hmem
            have := (hE id hid).mp hmem
            rw [List.count_cons] at this
            simp only [beq_self_eq_true, if_pos] at this
            push_cast at this
            omega
          · intro hle
            apply (hE id hid).mpr
            rw [List.count_cons]
            simp only [beq_self_eq_true, if_pos]
            push_cast
            omega
        · have hcf : (c == id) = false := by
            simp only [beq_eq_false_iff_ne, ne_eq]
            exact fun h => hidc h.symm
          constructor
          · intro hmem
            have := (hE id hid).mp hmem
            rw [List.count_cons, hcf] at this
            simpa using this
          · intro hle
            apply (hE id hid).mpr
            rw [List.count_cons, hcf]
            simpa using hle

/-- The Kahn loop preserves the invariant and therefore emits a duplicate-free
subset of the input in dependency-respecting order. -/
theorem kahnFuel_inv (sorted : List WorkOrder) (hns : (kahnKeys sorted).Nodup) :
    ∀ (fuel : Nat) (ind : List (String × Int)) (queue out : List WorkOrder),
    kahnMu ind queue ≤ fuel →
    KInv sorted ind queue out →
    (∀ o ∈ kahnFuel (childrenOf sorted) (idLookup sorted) fuel ind queue out,
      o ∈ sorted) ∧
    ((kahnFuel (childrenOf sorted) (idLookup sorted) fuel ind queue out).map
      (fun o => o.docId)).Nodup ∧
    DepsBefore (kahnFuel (childrenOf sorted) (idLookup sorted) fuel ind queue out) := by
  intro fuel
  induction fuel with
  | zero =>
    intro ind queue out hmu hInv
    have hq : queue = [] := by
      unfold kahnMu at hmu
      cases queue with
      | nil => rfl
      | cons a q => simp at hmu
    subst hq
    obtain ⟨hM, hO, hU, hE, hDB⟩ := hInv
    refine ⟨?_, ?_, hDB⟩
    · intro o ho
      exact hO o (by simpa using ho)
    · simpa using hU
  | succ fuel ih =>
    intro ind queue out hmu hInv
    obtain ⟨hM, hO, hU, hE, hDB⟩ := hInv
    cases queue with
    | nil =>
      refine ⟨?_, ?_, hDB⟩
      · intro o ho
        exact hO o (by simpa using ho)
      · simpa using hU
    | cons w rest =>
      have hwin : w ∈ sorted := hO w (by simp)
      have hwkey : w.docId ∈ kahnKeys sorted := List.mem_map.mpr ⟨w, hwin, rfl⟩
      have hwmem : w.docId ∈ (out ++ w :: rest).map (fun o => o.docId) := by simp
      have hval : depsCount sorted w.docId - (emitDec sorted out w.docId : Int) ≤ 0 :=
        (hE w.docId hwkey).mp hwmem
      have houtsub : ∀ o ∈ out, o ∈ sorted := fun o ho =>
        hO o (List.mem_append.mpr (Or.inl ho))
      have houtn : (out.map (fun o => o.docId)).Nodup := by
        have hsub : (out.map (fun o => o.docId)).Sublist
            ((out ++ w :: rest).map (fun o => o.docId)) :=
          (List.sublist_append_left out (w :: rest)).map _
        exact hsub.nodup hU
      have hdeps : ∀ pid ∈ w.data.dependsOnWorkOrderIds,
          pid ∈ out.map (fun o => o.docId) := by
        apply emitDec_ge_imp sorted hns w hwin out houtsub houtn
        have hdc := depsCount_eq sorted w hwin hns
        omega
      have hDB2 : DepsBefore (out ++ [w]) := DepsBefore_snoc out w hDB hdeps
      have happ : ∀ (q : List WorkOrder), (out ++ [w]) ++ q = out ++ (w :: q) := by
        intro q
        rw [List.append_assoc]
        rfl
      have hM2 : ∀ id, alGet ind id =
          if id ∈ kahnKeys sorted
          then some (depsCount sorted id - (emitDec sorted (out ++ [w]) id : Int) +
            ((childrenOf sorted w.docId).count id : Int)) else none := by
        intro id
        rw [hM id]
        by_cases hk : id ∈ kahnKeys sorted
        · rw [if_pos hk, if_pos hk]
          apply congrArg
          rw [emitDec_snoc]
          push_cast
          ring
        · rw [if_neg hk, if_neg hk]
      have hO2 : ∀ o ∈ (out ++ [w]) ++ rest, o ∈ sorted := by
        intro o ho
        rw [happ rest] at ho
        exact hO o ho
      have hU2 : (((out ++ [w]) ++ rest).map (fun o => o.docId)).Nodup := by
        rw [happ rest]
        exact hU
      have hE2 : ∀ id, id ∈ kahnKeys sorted →
          (id ∈ ((out ++ [w]) ++ rest).map (fun o => o.docId) ↔
            depsCount sorted id - (emitDec sorted (out ++ [w]) id : Int) +
              ((childrenOf sorted w.docId).count id : Int) ≤ 0) := by
        intro id hk
        have hveq : depsCount sorted id - (emitDec sorted (out ++ [w]) id : Int) +
            ((childrenOf sorted w.docId).count id : Int) =
            depsCount sorted id - (emitDec sorted out id : Int) := by
          rw [emitDec_snoc]
          push_cast
          ring
        rw [happ rest, hveq]
        exact hE id hk
      have hpost := foldl_childStep_inv sorted (out ++ [w])
        (childrenOf sorted w.docId) ind rest hM2 hO2 hU2 hE2
      obtain ⟨hM3, hO3, hU3, hE3⟩ := hpost
      have hmu2 : kahnMu (kahnStep (childrenOf sorted) (idLookup sorted) ind rest w).1
          (kahnStep (childrenOf sorted) (idLookup sorted) ind rest w).2 ≤ fuel := by
        have h1 := kahnStep_mu_le (childrenOf sorted) (idLookup sorted) ind rest w
        unfold kahnMu at hmu ⊢
        simp only [List.length_cons] at hmu
        omega
      have hInv2 : KInv sorted
          (kahnStep (childrenOf sorted) (idLookup sorted) ind rest w).1
          (kahnStep (childrenOf sorted) (idLookup sorted) ind rest w).2
          (out ++ [w]) :=
        ⟨hM3, hO3, hU3, hE3, hDB2⟩
      have hres := ih _ _ _ hmu2 hInv2
      have hunf : kahnFuel (childrenOf sorted) (idLookup sorted) (fuel + 1) ind
          (w :: rest) out =
          kahnFuel (childrenOf sorted) (idLookup sorted) fuel
            (kahnStep (childrenOf sorted) (idLookup sorted) ind rest w).1
            (kahnStep (childrenOf sorted) (idLookup sorted) ind rest w).2
            (out ++ [w]) := rfl
      rw [hunf]
      exact hres

/-- The invariant holds at the start of the queue phase. -/
theorem KInv_initial (sorted : List WorkOrder) (hns : (kahnKeys sorted).Nodup) :
    KInv sorted (initInDegree sorted)
      (sorted.filter (fun wo => decide (alGet (initInDegree sorted) wo.docId = some 0)))
      [] := by
  refine ⟨?_, ?_, ?_, ?_, DepsBefore_nil⟩
  · intro id
    rw [alGet_initInDegree]
    have hmk : id ∈ mapKeys sorted ↔ id ∈ kahnKeys sorted := mapKeys_mem sorted id
    by_cases hk : id ∈ kahnKeys sorted
    · rw [if_pos (hmk.mpr hk), if_pos hk]
      apply congrArg
      rw [emitDec_nil]
      push_cast
      ring
    · rw [if_neg (fun h => hk (hmk.mp h)), if_neg hk]
  · intro o ho
    simp only [List.nil_append] at ho
    exact List.mem_of_mem_filter ho
  · simp only [List.nil_append]
    exact ((List.filter_sublist sorted).map _).nodup hns
  · intro id hk
    simp only [List.nil_append]
    have hmk : id ∈ mapKeys sorted ↔ id ∈ kahnKeys sorted := mapKeys_mem sorted id
    constructor
    · intro hmem
      rcases List.mem_map.mp hmem with ⟨p, hp, hpid⟩
      have hpred := List.of_mem_filter hp
      have hget : alGet (initInDegree sorted) p.docId = some 0 :=
        of_decide_eq_true hpred
      rw [alGet_initInDegree, if_pos] at hget
      · have : depsCount sorted p.docId = 0 := by
          simpa using hget
        rw [← hpid, emitDec_nil]
        push_cast
        omega
      · exact (mapKeys_mem sorted p.docId).mpr
          (List.mem_map.mpr ⟨p, List.mem_of_mem_filter hp, rfl⟩)
    · intro hle
      rw [emitDec_nil] at hle
      push_cast at hle
      have hze : depsCount sorted id = 0 := by
        have := depsCount_nonneg sorted id
        omega
      rcases List.mem_map.mp hk with ⟨x, hx, hxid⟩
      apply List.mem_map.mpr
      refine ⟨x, ?_, hxid⟩
      apply List.mem_filter.mpr
      refine ⟨hx, ?_⟩
      apply decide_eq_true
      rw [hxid, alGet_initInDegree, if_pos (hmk.mpr hk), hze]

/-- Either the sort reports the cyclic-dependency error, or it returns a
length-preserving, duplicate-free, dependency-ordered list of input orders. -/
theorem sortWorkOrders_facts (wos : List WorkOrder)
    (hn : (wos.map (fun wo => wo.docId)).Nodup) :
    sortWorkOrders wos = Except.error cyclicErrMsg ∨
    ∃ res, sortWorkOrders wos = Except.ok res ∧ wos.length = res.length ∧
      (∀ o ∈ res, o ∈ wos.insertionSort woLeRel) ∧
      (res.map (fun o => o.docId)).Nodup ∧
      DepsBefore res := by
  have hns : (kahnKeys (wos.insertionSort woLeRel)).Nodup := by
    unfold kahnKeys
    exact ((List.perm_insertionSort woLeRel wos).map _).nodup_iff.mpr hn
  have hinit := KInv_initial (wos.insertionSort woLeRel) hns
  have hfacts := kahnFuel_inv (wos.insertionSort woLeRel) hns
    (kahnMu (initInDegree (wos.insertionSort woLeRel))
      ((wos.insertionSort woLeRel).filter (fun wo =>
        decide (alGet (initInDegree (wos.insertionSort woLeRel)) wo.docId = some 0))))
    (initInDegree (wos.insertionSort woLeRel))
    ((wos.insertionSort woLeRel).filter (fun wo =>
      decide (alGet (initInDegree (wos.insertionSort woLeRel)) wo.docId = some 0)))
    [] le_rfl hinit
  unfold sortWorkOrders
  dsimp only []
  split
  · left
    rfl
  · right
    rename_i hcheck
    refine ⟨_, rfl, ?_, hfacts.1, hfacts.2.1, hfacts.2.2⟩
    unfold checkForCyclicDependencies at hcheck
    simpa using hcheck

/-- A duplicate-free subset of a distinct-id list missing a member is strictly
shorter. -/
theorem missing_member_short (sorted res : List WorkOrder) (o : WorkOrder)
    (hns : (kahnKeys sorted).Nodup) (ho : o ∈ sorted)
    (hsub : ∀ p ∈ res, p ∈ sorted) (hresn : (res.map (fun p => p.docId)).Nodup)
    (hmiss : o ∉ res) : res.length < sorted.length := by
  have hids : res.map (fun p => p.docId) ⊆ (kahnKeys sorted).erase o.docId := by
    intro x hx
    rcases List.mem_map.mp hx with ⟨p, hp, hpid⟩
    have hpin : p.docId ∈ kahnKeys sorted := List.mem_map.mpr ⟨p, hsub p hp, rfl⟩
    have hne : p.docId ≠ o.docId := by
      intro he
      have : p = o := List.inj_on_of_nodup_map hns (hsub p hp) ho he
      exact hmiss (this ▸ hp)
    rw [← hpid]
    exact (List.mem_erase_of_ne hne).mpr hpin
  have hlen := (List.subperm_of_subset hresn hids).length_le
  have hok : o.docId ∈ kahnKeys sorted := List.mem_map.mpr ⟨o, ho, rfl⟩
  have herase := List.length_erase_of_mem hok
  have hkl : (kahnKeys sorted).length = sorted.length := List.length_map _ _
  have hrl : (res.map (fun p => p.docId)).length = res.length := List.length_map _ _
  have hpos : 0 < (kahnKeys sorted).length := List.length_pos_of_mem hok
  omega

/-- C3: for every input containing a dependency cycle, `sortWorkOrders` fails
with the cyclic-dependency error and `reflow` produces no schedule at all.
The cycle hypothesis is stated in its general form: a nonempty set of input
orders each of which depends on some member of the set — the members of any
dependency cycle (e.g. two orders that depend on each other) form such a set.
No member of such a set can ever be enqueued, so the traversal emits fewer
orders than it was given and the length check throws. -/
theorem c3_cycle_sort_fails (wos cyc : List WorkOrder) (workCenters : List WorkCenter)
    (hn : (wos.map (fun wo => wo.docId)).Nodup)
    (hne : cyc ≠ []) (hsub : ∀ m ∈ cyc, m ∈ wos)
    (hdep : ∀ m ∈ cyc, ∃ m2 ∈ cyc, m2.docId ∈ m.data.dependsOnWorkOrderIds) :
    sortWorkOrders wos = Except.error cyclicErrMsg ∧
    reflow wos workCenters = Except.error cyclicErrMsg := by
  have hmain : sortWorkOrders wos = Except.error cyclicErrMsg := by
    rcases sortWorkOrders_facts wos hn with h | ⟨res, hok, hlen, hres, hresn, hdb⟩
    · exact h
    · exfalso
      have hns : (kahnKeys (wos.insertionSort woLeRel)).Nodup := by
        unfold kahnKeys
        exact ((List.perm_insertionSort woLeRel wos).map _).nodup_iff.mpr hn
      have hmemsorted : ∀ m ∈ cyc, m ∈ wos.insertionSort woLeRel := fun m hm =>
        (List.perm_insertionSort woLeRel wos).mem_iff.mpr (hsub m hm)
      have hnotin : ∀ i, ∀ h : i < res.length, res.get ⟨i, h⟩ ∉ cyc := by
        intro i
        induction i using Nat.strong_induction_on with
        | _ i ihh =>
          intro h hmem
          rcases hdep _ hmem with ⟨m2, hm2c, hm2dep⟩
          have hpidmem := hdb i h m2.docId hm2dep
          rcases List.mem_map.mp hpidmem with ⟨p, hpt, hpid⟩
          have hpr : p ∈ res := List.mem_of_mem_take hpt
          have hpm2 : p = m2 :=
            List.inj_on_of_nodup_map hns (hres p hpr) (hmemsorted m2 hm2c) hpid
          rcases List.mem_take_iff_getElem.mp hpt with ⟨j, hj, hgetj⟩
          have hji : j < i := lt_of_lt_of_le hj (min_le_left _ _)
          have hjr : j < res.length := lt_of_lt_of_le hj (min_le_right _ _)
          apply ihh j hji hjr
          show res.get ⟨j, hjr⟩ ∈ cyc
          rw [List.get_eq_getElem, hgetj, hpm2]
          exact hm2c
      rcases List.exists_mem_of_ne_nil cyc hne with ⟨m0, hm0⟩
      have hm0notin : m0 ∉ res := by
        intro hmem
        rcases List.mem_iff_getElem.mp hmem with ⟨i, hi, hget⟩
        apply hnotin i hi
        rw [List.get_eq_getElem, hget]
        exact hm0
      have hlt := missing_member_short (wos.insertionSort woLeRel) res m0 hns
        (hmemsorted m0 hm0) hres hresn hm0notin
      have hsl : (wos.insertionSort woLeRel).length = wos.length :=
        (List.perm_insertionSort woLeRel wos).length_eq
      omega
  refine ⟨hmain, ?_⟩
  unfold reflow
  rw [hmain]

def c3w1 : WorkOrder :=
  { docId := "W1", docType := "workOrder",
    data := { workOrderNumber := "W1", manufacturingOrderId := "MO-3",
              workCenterId := "WC-3", startDate := 0, endDate := 60000,
              durationMinutes := 1, isMaintenance := false,
              dependsOnWorkOrderIds := ["W2"] } }

def c3w2 : WorkOrder :=
  { docId := "W2", docType := "workOrder",
    data := { workOrderNumber := "W2", manufacturingOrderId := "MO-3",
              workCenterId := "WC-3", startDate := 0, endDate := 60000,
              durationMinutes := 1, isMaintenance := false,
              dependsOnWorkOrderIds := ["W1"] } }

/-- Witness for C3: two orders that depend on each other. -/
theorem c3_cycle_sort_fails_witness :
    sortWorkOrders [c3w1, c3w2] = Except.error cyclicErrMsg ∧
    reflow [c3w1, c3w2] [] = Except.error cyclicErrMsg :=
  c3_cycle_sort_fails [c3w1, c3w2] [c3w1, c3w2] [] (by decide) (by decide)
    (by decide)
    (by
      intro m hm
      rcases List.mem_cons.mp hm with h | h
      · exact ⟨c3w2, by decide, by rw [h]; decide⟩
      · rcases List.mem_cons.mp h with h | h
        · exact ⟨c3w1, by decide, by rw [h]; decide⟩
        · cases h)

/-- C9 (implicit): if any work order lists a predecessor id that does not
identify any order in the input, `sortWorkOrders` throws the
cyclic-dependency error even when no cycle exists: the dangling id increments
the child's in-degree but contributes no edge, so the child is never enqueued
and the output is shorter than the input. -/
theorem c9_dangling_dependency_fails (wos : List WorkOrder) (o : WorkOrder)
    (pid : String)
    (hn : (wos.map (fun wo => wo.docId)).Nodup)
    (ho : o ∈ wos) (hpid : pid ∈ o.data.dependsOnWorkOrderIds)
    (hdangling : pid ∉ wos.map (fun wo => wo.docId)) :
    sortWorkOrders wos = Except.error cyclicErrMsg := by
  rcases sortWorkOrders_facts wos hn with h | ⟨res, hok, hlen, hres, hresn, hdb⟩
  · exact h
  · exfalso
    have hns : (kahnKeys (wos.insertionSort woLeRel)).Nodup := by
      unfold kahnKeys
      exact ((List.perm_insertionSort woLeRel wos).map _).nodup_iff.mpr hn
    have hos : o ∈ wos.insertionSort woLeRel :=
      (List.perm_insertionSort woLeRel wos).mem_iff.mpr ho
    have honotin : o ∉ res := by
      intro hmem
      rcases List.mem_iff_getElem.mp hmem with ⟨i, hi, hget⟩
      have hpidmem := hdb i hi pid (by rw [List.get_eq_getElem, hget]; exact hpid)
      rcases List.mem_map.mp hpidmem with ⟨p, hpt, hpid2⟩
      apply hdangling
      have hmem2 : pid ∈ (wos.insertionSort woLeRel).map (fun wo => wo.docId) :=
        List.mem_map.mpr ⟨p, hres p (List.mem_of_mem_take hpt), hpid2⟩
      exact ((List.perm_insertionSort woLeRel wos).map (fun wo => wo.docId)).mem_iff.mp
        hmem2
    have hlt := missing_member_short (wos.insertionSort woLeRel) res o hns hos
      hres hresn honotin
    have hsl : (wos.insertionSort woLeRel).length = wos.length :=
      (List.perm_insertionSort woLeRel wos).length_eq
    omega

def c9order : WorkOrder :=
  { docId := "W9", docType := "workOrder",
    data := { workOrderNumber := "W9", manufacturingOrderId := "MO-9",
              workCenterId := "WC-9", startDate := 0, endDate := 60000,
              durationMinutes := 1, isMaintenance := false,
              dependsOnWorkOrderIds := ["MISSING"] } }

/-- Witness for C9: a single order depending on an id absent from the input. -/
theorem c9_dangling_dependency_fails_witness :
    sortWorkOrders [c9order] = Except.error cyclicErrMsg :=
  c9_dangling_dependency_fails [c9order] c9order "MISSING" (by decide) (by decide)
    (by decide) (by decide)

/-! Machinery for C2: an invariant of the scheduling pass. -/

/-- A hit in the work-center lookup map is an input center stored under its
own id. -/
theorem wcByIdLookup_spec (wcs : List WorkCenter) :
    ∀ (m : String → Option WorkCenter) (id : String) (x : WorkCenter),
    (wcs.foldl (fun m wc => fmSet m wc.docId wc) m) id = some x →
    (x ∈ wcs ∧ x.docId = id) ∨ m id = some x := by
  induction wcs with
  | nil => intro m id x h; exact Or.inr h
  | cons wc t ih =>
    intro m id x h
    simp only [List.foldl_cons] at h
    rcases ih (fmSet m wc.docId wc) id x h with h2 | h2
    · exact Or.inl ⟨List.mem_cons.mpr (Or.inr h2.1), h2.2⟩
    · unfold fmSet at h2
      by_cases hid : id = wc.docId
      · rw [if_pos hid] at h2
        have hwx : wc = x := by simpa using h2
        subst hwx
        exact Or.inl ⟨List.mem_cons_self wc t, hid.symm⟩
      · rw [if_neg hid] at h2
        exact Or.inr h2

theorem gdmt_fold_none (sched : String → Option WorkOrder) :
    ∀ (deps : List String),
    deps.foldl (fun acc parentId =>
      match acc, sched parentId with
      | some t, some p =>
        some (if p.data.endDate > t then p.data.endDate else t)
      | _, _ => none) none = none := by
  intro deps
  induction deps with
  | nil => rfl
  | cons pid t ih =>
    simp only [List.foldl_cons]
    exact ih

theorem gdmt_fold_spec (sched : String → Option WorkOrder) :
    ∀ (deps : List String) (t0 dm : Int),
    deps.foldl (fun acc parentId =>
      match acc, sched parentId with
      | some t, some p =>
        some (if p.data.endDate > t then p.data.endDate else t)
      | _, _ => none) (some t0) = some dm →
    t0 ≤ dm ∧
    ∀ pid ∈ deps, ∃ p, sched pid = some p ∧ p.data.endDate ≤ dm := by
  intro deps
  induction deps with
  | nil =>
    intro t0 dm h
    simp only [List.foldl_nil, Option.some.injEq] at h
    subst h
    exact ⟨le_refl t0, fun pid hpid => absurd hpid (by simp)⟩
  | cons pid t ih =>
    intro t0 dm h
    simp only [List.foldl_cons] at h
    cases hs : sched pid with
    | none =>
      rw [hs] at h
      rw [gdmt_fold_none] at h
      cases h
    | some p =>
      rw [hs] at h
      rcases ih (if p.data.endDate > t0 then p.data.endDate else t0) dm h with
        ⟨ht1, hall⟩
      have ht0 : t0 ≤ (if p.data.endDate > t0 then p.data.endDate else t0) := by
        by_cases hgt : p.data.endDate > t0
        · rw [if_pos hgt]; omega
        · rw [if_neg hgt]
      have hp : p.data.endDate ≤ (if p.data.endDate > t0 then p.data.endDate else t0) := by
        by_cases hgt : p.data.endDate > t0
        · rw [if_pos hgt]
        · rw [if_neg hgt]; omega
      refine ⟨le_trans ht0 ht1, ?_⟩
      intro pid2 hpid2
      rcases List.mem_cons.mp hpid2 with h2 | h2
      · subst h2
        exact ⟨p, hs, le_trans hp ht1⟩
      · exact hall pid2 h2

/-- Everything a successful `scheduleWorkOrder` call guarantees about its
outputs. -/
theorem scheduleWorkOrder_spec (wo : WorkOrder) (wc : WorkCenter)
    (tps : String → Option Int) (sched : String → Option WorkOrder)
    (wo2 : WorkOrder) (ch : Option Change) (tps2 : String → Option Int)
    (sched2 : String → Option WorkOrder)
    (h : scheduleWorkOrder wo wc tps sched = some (wo2, ch, tps2, sched2)) :
    ∃ tp dm, tps wc.docId = some tp ∧
      getDependenciesMetTime wo sched = some dm ∧
      wo2.docId = wo.docId ∧
      wo2.data.workCenterId = wo.data.workCenterId ∧
      wo2.data.dependsOnWorkOrderIds = wo.data.dependsOnWorkOrderIds ∧
      wo2.data.durationMinutes = wo.data.durationMinutes ∧
      wo2.data.startDate = max (max tp wo.data.startDate) dm ∧
      wo2.data.endDate = wo2.data.startDate + wo.data.durationMinutes * msPerMinute ∧
      tps2 = fmSet tps wc.docId wo2.data.endDate ∧
      sched2 = fmSet sched wo.docId wo2 := by
  unfold scheduleWorkOrder at h
  cases htp : tps wc.docId with
  | none => rw [htp] at h; simp at h
  | some tp =>
    cases hdm : getDependenciesMetTime wo sched with
    | none => rw [htp, hdm] at h; simp at h
    | some dm =>
      rw [htp, hdm] at h
      simp only [] at h
      refine ⟨tp, dm, rfl, rfl, ?_⟩
      by_cases hcond : max (max tp wo.data.startDate) dm ≠ wo.data.startDate ∨
          max (max tp wo.data.startDate) dm + wo.data.durationMinutes * msPerMinute ≠
            wo.data.endDate
      · rw [if_pos hcond] at h
        simp only [Option.some.injEq, Prod.mk.injEq] at h
        obtain ⟨hwo2, _, htps2, hsched2⟩ := h
        subst hwo2
        refine ⟨rfl, rfl, rfl, rfl, rfl, rfl, htps2.symm, hsched2.symm⟩
      · rw [if_neg hcond] at h
        simp only [Option.some.injEq, Prod.mk.injEq] at h
        obtain ⟨hwo2, _, htps2, hsched2⟩ := h
        subst hwo2
        push_neg at hcond
        obtain ⟨hs, he⟩ := hcond
        refine ⟨rfl, rfl, rfl, rfl, hs.symm, ?_, ?_, hsched2.symm⟩
        · rw [← he, hs]
        · rw [← he]
          exact htps2.symm

/-- Orders assigned to the same work center occupy non-overlapping,
processing-ordered slots: any earlier list entry on the same center ends no
later than a later entry starts. -/
def CenterOrdered (l : List WorkOrder) : Prop :=
  ∀ (i j : Nat) (hi : i < l.length) (hj : j < l.length), i < j →
    (l.get ⟨i, hi⟩).data.workCenterId = (l.get ⟨j, hj⟩).data.workCenterId →
    (l.get ⟨i, hi⟩).data.endDate ≤ (l.get ⟨j, hj⟩).data.startDate

theorem CenterOrdered_nil : CenterOrdered [] := by
  intro i j hi
  simp at hi

theorem CenterOrdered_snoc (l : List WorkOrder) (w : WorkOrder)
    (hl : CenterOrdered l)
    (hw : ∀ o ∈ l, o.data.workCenterId = w.data.workCenterId →
      o.data.endDate ≤ w.data.startDate) :
    CenterOrdered (l ++ [w]) := by
  intro i j hi hj hij hcen
  have hjlen : j < l.length + 1 := by simpa using hj
  by_cases hjl : j < l.length
  · have hil : i < l.length := by omega
    have hgi : (l ++ [w]).get ⟨i, hi⟩ = l.get ⟨i, hil⟩ := by
      simp only [List.get_eq_getElem]
      exact List.getElem_append_left hil
    have hgj : (l ++ [w]).get ⟨j, hj⟩ = l.get ⟨j, hjl⟩ := by
      simp only [List.get_eq_getElem]
      exact List.getElem_append_left hjl
    rw [hgi, hgj] at hcen ⊢
    exact hl i j hil hjl hij hcen
  · have hjeq : j = l.length := by omega
    have hil : i < l.length := by omega
    have hgi : (l ++ [w]).get ⟨i, hi⟩ = l.get ⟨i, hil⟩ := by
      simp only [List.get_eq_getElem]
      exact List.getElem_append_left hil
    have hgj : (l ++ [w]).get ⟨j, hj⟩ = w := by
      simp only [List.get_eq_getElem]
      subst hjeq
      rw [List.getElem_append_right (le_refl l.length)]
      simp
    rw [hgi, hgj] at hcen ⊢
    exact hw (l.get ⟨i, hil⟩) (l.get_mem _ _) hcen

/-- The scheduling loop preserves and propagates the ordering invariants. -/
theorem reflowLoop_inv (wos : List WorkOrder) (wcs : List WorkCenter)
    (hdur : ∀ wo ∈ wos, 0 ≤ wo.data.durationMinutes) :
    ∀ (remaining : List WorkOrder) (tps : String → Option Int)
      (sched : String → Option WorkOrder) (accW : List WorkOrder)
      (accC : List Change) (res : Result),
    (∀ wo ∈ remaining, wo ∈ wos) →
    (((accW ++ remaining).map (fun o => o.docId)).Nodup) →
    (∀ o ∈ accW, ∀ t, tps o.data.workCenterId = some t → o.data.endDate ≤ t) →
    (∀ id x, sched id = some x → x ∈ accW ∧ x.docId = id) →
    (∀ o ∈ accW, ∃ w, w ∈ wos ∧ w.docId = o.docId ∧
      w.data.startDate ≤ o.data.startDate) →
    (∀ a ∈ accW, ∀ pid ∈ a.data.dependsOnWorkOrderIds,
      ∃ b, b ∈ accW ∧ b.docId = pid ∧ b.data.endDate ≤ a.data.startDate) →
    CenterOrdered accW →
    reflowLoop (wcByIdLookup wcs) remaining tps sched accW accC = Except.ok res →
    ((∀ o ∈ res.resultingWorkOrders, ∃ w, w ∈ wos ∧ w.docId = o.docId ∧
        w.data.startDate ≤ o.data.startDate) ∧
     ((res.resultingWorkOrders.map (fun o => o.docId)).Nodup) ∧
     (∀ a ∈ res.resultingWorkOrders, ∀ pid ∈ a.data.dependsOnWorkOrderIds,
       ∃ b, b ∈ res.resultingWorkOrders ∧ b.docId = pid ∧
         b.data.endDate ≤ a.data.startDate) ∧
     CenterOrdered res.resultingWorkOrders) := by
  intro remaining
  induction remaining with
  | nil =>
    intro tps sched accW accC res hrem hnod hR2 hR3 hR5 hR6 hR7 hok
    have hres : res.resultingWorkOrders = accW := by
      unfold reflowLoop at hok
      simp only [Except.ok.injEq] at hok
      rw [← hok]
    rw [hres]
    refine ⟨hR5, by simpa using hnod, hR6, hR7⟩
  | cons wo rest ih =>
    intro tps sched accW accC res hrem hnod hR2 hR3 hR5 hR6 hR7 hok
    unfold reflowLoop at hok
    cases hwc : wcByIdLookup wcs wo.data.workCenterId with
    | none => rw [hwc] at hok; cases hok
    | some wc =>
      rw [hwc] at hok
      simp only [] at hok
      cases hsw : scheduleWorkOrder wo wc tps sched with
      | none => rw [hsw] at hok; cases hok
      | some r =>
        obtain ⟨wo2, ch, tps2, sched2⟩ := r
        rw [hsw] at hok
        simp only [] at hok
        rcases scheduleWorkOrder_spec wo wc tps sched wo2 ch tps2 sched2 hsw with
          ⟨tp, dm, htp, hdm, hid, hwcid, hdeps, hdur2, hstart, hend, htps2, hsched2⟩
        have hwoin : wo ∈ wos := hrem wo (List.mem_cons_self wo rest)
        have hwcid2 : wc.docId = wo.data.workCenterId := by
          rcases wcByIdLookup_spec wcs fmEmpty wo.data.workCenterId wc hwc with h | h
          · exact h.2
          · cases h
        have hdurwo : 0 ≤ wo.data.durationMinutes := hdur wo hwoin
        have hmsp : (0 : Int) ≤ msPerMinute := by decide
        have hs_ge_tp : tp ≤ wo2.data.startDate := by
          rw [hstart]
          exact le_trans (le_max_left _ _) (le_max_left _ _)
        have hs_ge_start : wo.data.startDate ≤ wo2.data.startDate := by
          rw [hstart]
          exact le_trans (le_max_right _ _) (le_max_left _ _)
        have hs_ge_dm : dm ≤ wo2.data.startDate := by
          rw [hstart]
          exact le_max_right _ _
        have hend_ge : wo2.data.startDate ≤ wo2.data.endDate := by
          rw [hend]
          have := mul_nonneg hdurwo hmsp
          omega
        apply ih tps2 sched2 (accW ++ [wo2]) _ res
        · intro w hw
          exact hrem w (List.mem_cons.mpr (Or.inr hw))
        · have heq : ((accW ++ [wo2]) ++ rest).map (fun o => o.docId) =
              (accW ++ wo :: rest).map (fun o => o.docId) := by
            simp [hid]
          rw [heq]
          exact hnod
        · intro o ho t ht
          rw [htps2] at ht
          unfold fmSet at ht
          rcases List.mem_append.mp ho with hoa | how
          · by_cases hoc : o.data.workCenterId = wc.docId
            · rw [if_pos hoc] at ht
              have hteq : wo2.data.endDate = t := by simpa using ht
              have hole : o.data.endDate ≤ tp := by
                apply hR2 o hoa
                rw [hoc]
                exact htp
              omega
            · rw [if_neg hoc] at ht
              exact hR2 o hoa t ht
          · have howo : o = wo2 := by simpa using how
            subst howo
            have hoc : o.data.workCenterId = wc.docId := by
              rw [hwcid, hwcid2]
            rw [if_pos hoc] at ht
            have hteq : o.data.endDate = t := by simpa using ht
            omega
        · intro id x hx
          rw [hsched2] at hx
          unfold fmSet at hx
          by_cases hidw : id = wo.docId
          · rw [if_pos hidw] at hx
            have : wo2 = x := by simpa using hx
            subst this
            exact ⟨List.mem_append.mpr (Or.inr (by simp)), by rw [hid, hidw]⟩
          · rw [if_neg hidw] at hx
            rcases hR3 id x hx with ⟨hxin, hxid⟩
            exact ⟨List.mem_append.mpr (Or.inl hxin), hxid⟩
        · intro o ho
          rcases List.mem_append.mp ho with hoa | how
          · exact hR5 o hoa
          · have howo : o = wo2 := by simpa using how
            subst howo
            exact ⟨wo, hwoin, hid.symm, hs_ge_start⟩
        · intro a ha pid hpid
          rcases List.mem_append.mp ha with haa | haw
          · rcases hR6 a haa pid hpid with ⟨b, hbin, hbid, hble⟩
            exact ⟨b, List.mem_append.mpr (Or.inl hbin), hbid, hble⟩
          · have hawo : a = wo2 := by simpa using haw
            subst hawo
            rw [hdeps] at hpid
            have hgd : getDependenciesMetTime wo sched = some dm := hdm
            unfold getDependenciesMetTime at hgd
            rcases (gdmt_fold_spec sched wo.data.dependsOnWorkOrderIds 0 dm hgd).2
              pid hpid with ⟨p, hp, hple⟩
            rcases hR3 pid p hp with ⟨hpin, hpid2⟩
            refine ⟨p, List.mem_append.mpr (Or.inl hpin), hpid2, ?_⟩
            omega
        · apply CenterOrdered_snoc accW wo2 hR7
          intro o ho hoc
          have hole : o.data.endDate ≤ tp := by
            apply hR2 o ho
            rw [hoc, hwcid, ← hwcid2]
            exact htp
          omega
        · exact hok

/-- C2: for every successful run over a valid input (distinct ids,
non-negative durations), every scheduled order starts no earlier than its
originally planned start and no earlier than the scheduled end of each of its
predecessors (so for A depending on B, B's scheduled end is at most A's
scheduled start), and the orders of one work center occupy non-overlapping
slots in processing order — the observable content of "start is at least the
center's time cursor at scheduling time". -/
theorem c2_reflow_ordering_invariants (wos : List WorkOrder)
    (wcs : List WorkCenter) (res : Result)
    (hok : reflow wos wcs = Except.ok res)
    (hn : (wos.map (fun wo => wo.docId)).Nodup)
    (hdur : ∀ wo ∈ wos, 0 ≤ wo.data.durationMinutes) :
    (∀ o ∈ res.resultingWorkOrders, ∀ w ∈ wos, w.docId = o.docId →
      w.data.startDate ≤ o.data.startDate) ∧
    (∀ a ∈ res.resultingWorkOrders, ∀ b ∈ res.resultingWorkOrders,
      b.docId ∈ a.data.dependsOnWorkOrderIds →
      b.data.endDate ≤ a.data.startDate) ∧
    CenterOrdered res.resultingWorkOrders := by
  unfold reflow at hok
  cases hsort : sortWorkOrders wos with
  | error e => rw [hsort] at hok; cases hok
  | ok sorted =>
    rw [hsort] at hok
    simp only [] at hok
    rcases sortWorkOrders_facts wos hn with hbad | ⟨res2, hok2, hlen2, hsub2, hnod2, _⟩
    · rw [hbad] at hsort; cases hsort
    · rw [hok2] at hsort
      have hs2 : res2 = sorted := by simpa using hsort
      subst hs2
      cases hsorted : res2 with
      | nil =>
        rw [hsorted] at hok
        cases hok
      | cons first restS =>
        rw [hsorted] at hok hsub2 hnod2
        have hfacts := reflowLoop_inv wos wcs hdur (first :: restS)
          (initTimePointers wcs first.data.startDate) fmEmpty [] [] res
          (fun wo hw => (List.perm_insertionSort woLeRel wos).subset (hsub2 wo hw))
          (by simpa using hnod2)
          (fun o ho => absurd ho (by simp))
          (fun id x hx => by cases hx)
          (fun o ho => absurd ho (by simp))
          (fun a ha => absurd ha (by simp))
          CenterOrdered_nil
          hok
        obtain ⟨hC5, hCn, hC6, hC7⟩ := hfacts
        refine ⟨?_, ?_, hC7⟩
        · intro o ho w hw hwid
          rcases hC5 o ho with ⟨w2, hw2in, hw2id, hw2le⟩
          have heq : w = w2 :=
            List.inj_on_of_nodup_map hn hw hw2in (hwid.trans hw2id.symm)
          rw [heq]
          exact hw2le
        · intro a ha b hb hbdep
          rcases hC6 a ha b.docId hbdep with ⟨b2, hb2in, hb2id, hb2le⟩
          have heq : b = b2 :=
            List.inj_on_of_nodup_map hCn hb hb2in hb2id.symm
          rw [heq]
          exact hb2le

def c2wc : WorkCenter :=
  { docId := "WC-2", docType := "workCenter",
    calendar := mkCalendar [] [],
    data := { name := "Center 2", shifts := [], maintenanceWindows := [] } }

def c2a : WorkOrder :=
  { docId := "WO-2A", docType := "workOrder",
    data := { workOrderNumber := "WO-2A", manufacturingOrderId := "MO-2",
              workCenterId := "WC-2", startDate := 0, endDate := 3600000,
              durationMinutes := 60, isMaintenance := false,
              dependsOnWorkOrderIds := [] } }

def c2b : WorkOrder :=
  { docId := "WO-2B", docType := "workOrder",
    data := { workOrderNumber := "WO-2B", manufacturingOrderId := "MO-2",
              workCenterId := "WC-2", startDate := 1800000, endDate := 5400000,
              durationMinutes := 60, isMaintenance := false,
              dependsOnWorkOrderIds := ["WO-2A"] } }

def c2bMoved : WorkOrder :=
  { docId := "WO-2B", docType := "workOrder",
    data := { workOrderNumber := "WO-2B", manufacturingOrderId := "MO-2",
              workCenterId := "WC-2", startDate := 3600000, endDate := 7200000,
              durationMinutes := 60, isMaintenance := false,
              dependsOnWorkOrderIds := ["WO-2A"] } }

def c2res : Result :=
  { resultingWorkOrders := [c2a, c2bMoved],
    changes := [{ workOrderId := "WO-2B", oldStartTime := 1800000,
                  newStartTime := 3600000, oldEndTime := 5400000,
                  newEndTime := 7200000, delayReason := delayReasonMsg }] }

/-- Witness for C2: a dependent order pushed behind its predecessor on one
center. -/
theorem c2_reflow_ordering_invariants_witness :
    (∀ o ∈ c2res.resultingWorkOrders, ∀ w ∈ [c2a, c2b], w.docId = o.docId →
      w.data.startDate ≤ o.data.startDate) ∧
    (∀ a ∈ c2res.resultingWorkOrders, ∀ b ∈ c2res.resultingWorkOrders,
      b.docId ∈ a.data.dependsOnWorkOrderIds →
      b.data.endDate ≤ a.data.startDate) ∧
    CenterOrdered c2res.resultingWorkOrders :=
  c2_reflow_ordering_invariants [c2a, c2b] [c2wc] c2res (by decide) (by decide)
    (by decide)
